import Mathlib

/-!
# Silence-processor verification

Shallow embedding (over `ℚ`/`ℤ`/`ℕ`) of the silence-detection, segmentation
planning and piece extraction algorithms of the silence-processor repository
(`silence_serverless.py`, `silence_serverless_r2.py`, `audio_splitter.py`),
together with proofs and refutations of the specification's claims about them.

Conventions of the embedding:
* audio samples are rationals (the source works with `float32`/`float64`;
  arithmetic is modelled exactly over `ℚ`);
* Python's `round` (banker's rounding, round half to even) is `pythonRound`,
  Python's `int(...)` truncation toward zero is `pythonTrunc`;
* the silence threshold enters the detector only through the strict
  comparison `seg_db < silence_thresh_db`, where
  `seg_db = 20*log10(rms)` (`-inf` for `rms <= 0`).  For `t` finite this
  comparison is equivalent to `rms^2 < (10^(t/20))^2`, so the executable
  detector takes the squared linear threshold `tsq = (10^(t/20))^2` as its
  parameter; the equivalence with the dB formulation of the source is proved
  in `silentWindow_iff_db`.
-/

namespace SilenceProc

/-- Rational ceiling, computed as `-⌊-q⌋` (`Rat.floor` is executable). -/
def ratCeil (q : ℚ) : ℤ := -(-q).floor

/-- Python 3 `round` to an integer: round half to even (banker's rounding). -/
def pythonRound (q : ℚ) : ℤ :=
  let f : ℤ := q.floor
  let r : ℚ := q - f
  if r < 1/2 then f
  else if (1:ℚ)/2 < r then f + 1
  else if f % 2 = 0 then f else f + 1

/-- Python `int(...)` applied to a float: truncation toward zero. -/
def pythonTrunc (q : ℚ) : ℤ :=
  if 0 ≤ q then q.floor else -(-q).floor

/-- Mean of the squares of a window's samples, `np.mean(seg ** 2)`. -/
def meanSq (seg : List ℚ) : ℚ :=
  (seg.map (fun s => s * s)).sum / (seg.length : ℚ)

/-- Window classification of the detectors:
`seg_db < silence_thresh_db` with `seg_db = -inf if rms <= 0 else 20*log10(rms)`,
reparametrised by the squared linear threshold `tsq = (10^(t/20))^2`
(see `silentWindow_iff_db`). -/
def silentWindow (tsq : ℚ) (seg : List ℚ) : Bool :=
  decide (meanSq seg < tsq)

/-- The run-coalescing scan of `detect_silence_chunked`: the `while i < n_hops`
loop walking the boolean array, emitting each maximal run `[s, e)` of `True`
entries.  `i` is the absolute index of the head of `l`; `st` is `some s` while
a run that started at window `s` is still open. -/
def coalesceAux : List Bool → ℕ → Option ℕ → List (ℕ × ℕ)
  | [], _, none => []
  | [], i, some s => [(s, i)]
  | b :: rest, i, none =>
      if b then coalesceAux rest (i + 1) (some i) else coalesceAux rest (i + 1) none
  | b :: rest, i, some s =>
      if b then coalesceAux rest (i + 1) (some s)
      else (s, i) :: coalesceAux rest (i + 1) none

/-- All maximal runs of `true` in a boolean window array. -/
def silentRuns (silent : List Bool) : List (ℕ × ℕ) :=
  coalesceAux silent 0 none

/-- The segment builder of `detect_silence_chunked`: keep a maximal silent run
`[s, e)` only when `(e - s) * seek_step_ms >= min_silence_len_ms`, and report
it as `[s * seek_step_ms, e * seek_step_ms]`. -/
def segmentsOf (silent : List Bool) (seekStep minSilenceLen : ℕ) : List (ℤ × ℤ) :=
  ((silentRuns silent).filter
      (fun r => decide (minSilenceLen ≤ (r.2 - r.1) * seekStep))).map
    (fun r => ((r.1 * seekStep : ℤ), (r.2 * seekStep : ℤ)))

/-- `clamp(v, lo, hi) = max(lo, min(hi, v))`. -/
def clamp (v lo hi : ℤ) : ℤ := max lo (min hi v)

/-- `hop = max(1, int(round(sr * (seek_step_ms / 1000.0))))`. -/
def hopOf (sr seekStep : ℕ) : ℕ :=
  (max 1 (pythonRound ((sr * seekStep : ℚ) / 1000))).toNat

/-- `n_hops = int(np.ceil((len(x_mono) - win) / hop)) + 1`
(the subtraction is over ℤ as in Python, the division exact as over floats). -/
def nHopsOf (len win hop : ℕ) : ℕ :=
  (ratCeil (((len : ℚ) - (win : ℚ)) / (hop : ℚ)) + 1).toNat

/-- Zero padding of the signal up to `(n_hops - 1) * hop + win` samples:
`pad_len = (n_hops - 1) * hop + win - len(x_mono)`, padded only if positive
(with natural subtraction the `if pad_len > 0` branch is subsumed). -/
def xPadOf (x : List ℚ) (win hop nHops : ℕ) : List ℚ :=
  x ++ List.replicate ((nHops - 1) * hop + win - x.length) 0

/-- Window `i` of the padded signal: `x_pad[i*hop : i*hop + win]`. -/
def windowOf (xPad : List ℚ) (hop win i : ℕ) : List ℚ :=
  (xPad.drop (i * hop)).take win

/-- Per-window classification loop of the sequential detector. -/
def seqSilentArr (xPad : List ℚ) (hop win nHops : ℕ) (tsq : ℚ) : List Bool :=
  (List.range nHops).map (fun i => silentWindow tsq (windowOf xPad hop win i))

/-- `audio_ms = int(round(len(x_mono) / sr * 1000.0))`. -/
def audioMsOf (len sr : ℕ) : ℤ :=
  pythonRound ((len : ℚ) / (sr : ℚ) * 1000)

/-- The sequential silence detector `detect_silence_chunked` of
`_detect_silence_segments_fast`: per-window RMS classification, run
coalescing, minimum-length filter, clamping of the reported millisecond
spans into `[0, audio_ms]`.  Returns the list of `[start_ms, end_ms]` spans. -/
def detectSeq (x : List ℚ) (sr : ℕ) (minSilenceLen : ℕ) (tsq : ℚ)
    (seekStep : ℕ) : List (ℤ × ℤ) :=
  if x.length = 0 then []
  else
    let hop := hopOf sr seekStep
    let win := hop
    let nHops := nHopsOf x.length win hop
    let xPad := xPadOf x win hop nHops
    let silent := seqSilentArr xPad hop win nHops tsq
    let audioMs := audioMsOf x.length sr
    (segmentsOf silent seekStep minSilenceLen).map
      (fun p => (clamp p.1 0 audioMs, clamp p.2 0 audioMs))

/-! ## Chunk-parallel detector (`_detect_silence_segments_multiprocessing`,
`_process_audio_chunk` of `silence_serverless_r2.py`) -/

/-- The `chunk_data` dictionary handed to each worker. -/
structure AudioChunk where
  x_chunk : List ℚ
  start_hop_idx : ℕ
  hop : ℕ
  win : ℕ
  silence_thresh_sq : ℚ
  chunk_idx : ℕ
deriving DecidableEq, Repr

/-- The dictionary a worker returns. -/
structure ChunkResult where
  silent : List Bool
  start_hop_idx : ℕ
  chunk_idx : ℕ
deriving DecidableEq, Repr

/-- `_process_audio_chunk`, exception-free body: recompute the number of hops
of this chunk, zero-pad, and classify each window. -/
def processAudioChunk (c : AudioChunk) : ChunkResult :=
  let nHopsZ : ℤ :=
    if c.win ≤ c.x_chunk.length then
      ratCeil (((c.x_chunk.length : ℚ) - (c.win : ℚ)) / (c.hop : ℚ)) + 1
    else 0
  if nHopsZ ≤ 0 then { silent := [], start_hop_idx := c.start_hop_idx, chunk_idx := c.chunk_idx }
  else
    let n := nHopsZ.toNat
    let xPad := c.x_chunk ++
      List.replicate ((n - 1) * c.hop + c.win - c.x_chunk.length) 0
    { silent := (List.range n).map
        (fun i => silentWindow c.silence_thresh_sq (windowOf xPad c.hop c.win i)),
      start_hop_idx := c.start_hop_idx, chunk_idx := c.chunk_idx }

/-- `_process_audio_chunk` with its `try/except`: an exception inside the
worker (`failed = true`, an environmental event the embedding takes as an
oracle) is swallowed and the worker reports an **empty** `silent` array with
its `start_hop_idx` — it does not propagate to the coordinator. -/
def processAudioChunkF (failed : Bool) (c : AudioChunk) : ChunkResult :=
  if failed then { silent := [], start_hop_idx := c.start_hop_idx, chunk_idx := c.chunk_idx }
  else processAudioChunk c

/-- `hops_per_process = max(n_hops // num_processes, 10)`. -/
def hppOf (numProc nHops : ℕ) : ℕ := max (nHops / numProc) 10

/-- The chunk partitioning of the coordinator: chunk `i` covers hops
`[i*hpp, min((i+1)*hpp, n_hops))` (the last chunk takes all remaining hops)
and receives samples `x_pad[start_hop*hop : min(end_hop*hop + win, len(x_pad))]`;
ranges starting at or past `n_hops` produce no chunk. -/
def mkChunks (numProc nHops hop win : ℕ) (tsq : ℚ) (xPad : List ℚ) :
    List AudioChunk :=
  let hpp := hppOf numProc nHops
  (List.range numProc).filterMap (fun i =>
    let startHop := i * hpp
    let endHop := if i = numProc - 1 then nHops else min ((i + 1) * hpp) nHops
    if startHop < nHops then
      some { x_chunk := (xPad.drop (startHop * hop)).take
               (min (endHop * hop + win) xPad.length - startHop * hop),
             start_hop_idx := startHop, hop := hop, win := win,
             silence_thresh_sq := tsq, chunk_idx := i }
    else none)

/-- The write-back loop
`for j, is_silent in enumerate(chunk_result['silent']): if start_idx + j < len(silent): silent[start_idx + j] = is_silent`. -/
def writeChunk (arr : List Bool) (startIdx : ℕ) (vals : List Bool) : List Bool :=
  match vals with
  | [] => arr
  | v :: vs => writeChunk (if startIdx < arr.length then arr.set startIdx v else arr)
      (startIdx + 1) vs

/-- Reassembly of the full boolean array from the per-chunk results, starting
from `[False] * n_hops`. -/
def reconstructSilent (nHops : ℕ) (results : List ChunkResult) : List Bool :=
  results.foldl (fun arr r => writeChunk arr r.start_hop_idx r.silent)
    (List.replicate nHops false)

/-- `_detect_silence_segments_multiprocessing`'s chunked computation (the
path taken when multiprocessing is enabled): partition the hop range,
classify per chunk (each worker's possible internal failure given by the
`fails` oracle on its `chunk_idx`), reassemble the boolean array, then run
the same coalescing, length filter and clamping as the sequential detector. -/
def detectMulti (fails : ℕ → Bool) (numProc : ℕ) (x : List ℚ) (sr : ℕ)
    (minSilenceLen : ℕ) (tsq : ℚ) (seekStep : ℕ) : List (ℤ × ℤ) :=
  let hop := hopOf sr seekStep
  let win := hop
  if x.length = 0 then []
  else
    let nHops := nHopsOf x.length win hop
    let xPad := xPadOf x win hop nHops
    let chunks := mkChunks numProc nHops hop win tsq xPad
    let results := chunks.map (fun c => processAudioChunkF (fails c.chunk_idx) c)
    let silent := reconstructSilent nHops results
    let audioMs := audioMsOf x.length sr
    (segmentsOf silent seekStep minSilenceLen).map
      (fun p => (clamp p.1 0 audioMs, clamp p.2 0 audioMs))

/-! ## Segmentation planner (`_calculate_intelligent_split_plan`,
`_make_piece_plan_silence7_strategy`) -/

/-- One planned piece, the `{piece_index, start_ms, end_ms, duration_ms,
trim_leading_ms}` fields of the plan dictionaries (the formatted-timestamp
strings are derived data and are not modelled). -/
structure Piece where
  piece_index : ℕ
  start_ms : ℤ
  end_ms : ℤ
  duration_ms : ℤ
  trim_leading_ms : ℤ
deriving DecidableEq, Repr

/-- The middle pieces of the silence7 strategy: the
`for i in range(1, len(silences_ms))` loop, where piece `i+1` spans
`[a_i-1, b_i]` and carries `trim_leading_ms = max(0, b_i-1 - a_i-1)`.
`prev` is `silences_ms[i-1]`, `idx` the next `piece_index` to emit. -/
def middlePieces : (ℤ × ℤ) → List (ℤ × ℤ) → ℕ → List Piece
  | _, [], _ => []
  | prev, cur :: rest, idx =>
      { piece_index := idx, start_ms := prev.1, end_ms := cur.2,
        duration_ms := cur.2 - prev.1,
        trim_leading_ms := max 0 (prev.2 - prev.1) } :: middlePieces cur rest (idx + 1)

/-- `_make_piece_plan_silence7_strategy(silences_ms, total_ms)`. -/
def makePiecePlan (silences : List (ℤ × ℤ)) (totalMs : ℤ) : List Piece :=
  match silences with
  | [] => [{ piece_index := 1, start_ms := 0, end_ms := totalMs,
             duration_ms := totalMs, trim_leading_ms := 0 }]
  | first :: rest =>
      let last := (first :: rest).getLastD (0, 0)
      { piece_index := 1, start_ms := 0, end_ms := first.2,
        duration_ms := first.2, trim_leading_ms := 0 } ::
        (middlePieces first rest 2 ++
          [{ piece_index := rest.length + 2, start_ms := last.1, end_ms := totalMs,
             duration_ms := totalMs - last.1,
             trim_leading_ms := max 0 (last.2 - last.1) }])

/-- Midpoint of a silence interval in seconds:
`((start_ms + end_ms) / 2) / 1000`. -/
def silenceMidSec (p : ℤ × ℤ) : ℚ := (((p.1 : ℚ) + (p.2 : ℚ)) / 2) / 1000

/-- The nearest-silence scan of the planner: walks the silence list keeping
the first interval of minimal `|midpoint_seconds - target_seconds|`
(an update happens only on a strictly smaller distance, so ties keep the
earlier interval; the initial `best_distance = inf` is modelled by `none`). -/
def scanBest : List (ℤ × ℤ) → ℚ → Option ((ℤ × ℤ) × ℚ) → Option ((ℤ × ℤ) × ℚ)
  | [], _, best => best
  | s :: rest, tSec, best =>
      let d := |silenceMidSec s - tSec|
      match best with
      | none => scanBest rest tSec (some (s, d))
      | some (b, bd) =>
          if d < bd then scanBest rest tSec (some (s, d))
          else scanBest rest tSec (some (b, bd))

/-- `num_pieces = max(2, round(total_duration_minutes / 5))` (the `> 20`
branch; `target_segment_minutes = 5`). -/
def numPiecesOf (M : ℚ) : ℤ := max 2 (pythonRound (M / 5))

/-- The target split points in minutes:
`(total_duration_minutes / num_pieces) * i` for `i in range(1, num_pieces)`. -/
def targetMinutesOf (M : ℚ) (n : ℤ) : List ℚ :=
  (List.range' 1 (n - 1).toNat).map (fun i : ℕ => (M / (n : ℚ)) * (i : ℚ))

/-- The selected silences: for each target point the first nearest-midpoint
silence interval, skipped when the scan found none (empty silence list). -/
def selectedSilencesOf (M : ℚ) (segs : List (ℤ × ℤ)) : List (ℤ × ℤ) :=
  (targetMinutesOf M (numPiecesOf M)).filterMap
    (fun tm => (scanBest segs (tm * 60) none).map (fun r => r.1))

/-- `int(total_duration_minutes * 60 * 1000)`. -/
def totalMsOf (M : ℚ) : ℤ := pythonTrunc (M * 60 * 1000)

/-- The pieces of `_calculate_intelligent_split_plan(total_duration_minutes,
silence_segments, ...)`: a single whole-file piece when the duration is at
most 20 minutes, otherwise the silence7 plan built from the selected
silences. -/
def planPieces (M : ℚ) (segs : List (ℤ × ℤ)) : List Piece :=
  if M ≤ 20 then
    [{ piece_index := 1, start_ms := 0, end_ms := totalMsOf M,
       duration_ms := totalMsOf M, trim_leading_ms := 0 }]
  else makePiecePlan (selectedSilencesOf M segs) (totalMsOf M)

/-! ## Piece extractor (`audio_splitter.py`, `split_audio_from_parts_json`) -/

/-- One per-piece extraction record (the boundary fields of the
`split_results` entries). -/
structure SplitResult where
  piece_index : ℕ
  start_ms : ℤ
  end_ms : ℤ
  actual_start_sample : ℤ
  actual_end_sample : ℤ
  trim_leading_ms : ℤ
deriving DecidableEq, Repr

/-- Requested start sample of a piece:
`start_sample = int((start_ms / 1000.0) * target_sr)`, plus
`int((trim_leading_ms / 1000.0) * target_sr)` when `trim_leading_ms > 0`. -/
def pieceStartSample (p : Piece) (targetSr : ℕ) : ℤ :=
  let base := pythonTrunc (((p.start_ms : ℚ) / 1000) * (targetSr : ℚ))
  if 0 < p.trim_leading_ms then
    base + pythonTrunc (((p.trim_leading_ms : ℚ) / 1000) * (targetSr : ℚ))
  else base

/-- Requested end sample of a piece: `int((end_ms / 1000.0) * target_sr)`. -/
def pieceEndSample (p : Piece) (targetSr : ℕ) : ℤ :=
  pythonTrunc (((p.end_ms : ℚ) / 1000) * (targetSr : ℚ))

/-- The piece loop of `split_audio_from_parts_json`: bound the start below by
`0` and the end above by the sample count, skip the piece when
`start_sample >= end_sample`, keep the clipped boundaries otherwise. -/
def extractPieces (pieces : List Piece) (totalSamples : ℕ) (targetSr : ℕ) :
    List SplitResult :=
  pieces.filterMap (fun p =>
    let s := max 0 (pieceStartSample p targetSr)
    let e := min (totalSamples : ℤ) (pieceEndSample p targetSr)
    if e ≤ s then none
    else some { piece_index := p.piece_index, start_ms := p.start_ms,
                end_ms := p.end_ms, actual_start_sample := s,
                actual_end_sample := e, trim_leading_ms := p.trim_leading_ms })

/-- `Rat.floor` agrees with the `FloorRing` floor on `ℚ`. -/
theorem ratFloor_eq (q : ℚ) : q.floor = ⌊q⌋ := by
  rw [Rat.floor_def, Rat.floor_def']

/-- `ratCeil` agrees with the `FloorRing` ceiling on `ℚ`. -/
theorem ratCeil_eq (q : ℚ) : ratCeil q = ⌈q⌉ := by
  rw [ratCeil, ratFloor_eq, Int.floor_neg, neg_neg]

example : pythonRound (24/10) = 2 := by norm_num [pythonRound, ratFloor_eq]
example : pythonRound (5/2) = 2 := by norm_num [pythonRound, ratFloor_eq]
example : pythonRound (7/2) = 4 := by norm_num [pythonRound, ratFloor_eq]
example : pythonRound (-5/2) = -2 := by norm_num [pythonRound, ratFloor_eq]
example : pythonTrunc (-7/2) = -3 := by norm_num [pythonTrunc, ratFloor_eq]
example : silentRuns [false, true, true, false, true] = [(1, 3), (4, 5)] := by decide
example : segmentsOf [false, true, true, false, true] 20 40 = [(20, 60)] := by decide

/-! ## Planner structure (claim C6) -/

/-- `start_ms` of the `j`-th (0-based) silence interval of a list. -/
def silStart (sil : List (ℤ × ℤ)) (j : ℕ) : ℤ := (sil.getD j (0, 0)).1

/-- `end_ms` of the `j`-th (0-based) silence interval of a list. -/
def silEnd (sil : List (ℤ × ℤ)) (j : ℕ) : ℤ := (sil.getD j (0, 0)).2

/-- Default for out-of-range piece lookups. -/
def dPiece : Piece := ⟨0, 0, 0, 0, 0⟩

theorem middlePieces_length (l : List (ℤ × ℤ)) (prev : ℤ × ℤ) (idx : ℕ) :
    (middlePieces prev l idx).length = l.length := by
  induction l generalizing prev idx with
  | nil => rfl
  | cons cur rest ih => simp [middlePieces, ih]

theorem middlePieces_getD (l : List (ℤ × ℤ)) (prev : ℤ × ℤ) (idx j : ℕ)
    (hj : j < l.length) :
    (middlePieces prev l idx).getD j dPiece =
      { piece_index := idx + j,
        start_ms := ((prev :: l).getD j (0, 0)).1,
        end_ms := (l.getD j (0, 0)).2,
        duration_ms := (l.getD j (0, 0)).2 - ((prev :: l).getD j (0, 0)).1,
        trim_leading_ms :=
          max 0 (((prev :: l).getD j (0, 0)).2 - ((prev :: l).getD j (0, 0)).1) } := by
  induction l generalizing prev idx j with
  | nil => exact absurd hj (by simp)
  | cons cur rest ih =>
    cases j with
    | zero => simp [middlePieces]
    | succ j =>
      have hj' : j < rest.length := by simpa using hj
      simp only [middlePieces, List.getD_cons_succ]
      rw [ih cur (idx + 1) j hj']
      simp [Nat.add_assoc, Nat.add_comm 1 j]

theorem getLastD_eq_getD {α : Type _} (l : List α) (d : α) :
    l.getLastD d = l.getD (l.length - 1) d := by
  induction l generalizing d with
  | nil => rfl
  | cons a l ih =>
    cases l with
    | nil => rfl
    | cons b l' =>
      rw [List.getLastD_cons, ih]
      simp [List.getD_cons_succ]

theorem makePiecePlan_length (sil : List (ℤ × ℤ)) (total : ℤ) :
    (makePiecePlan sil total).length = sil.length + 1 := by
  cases sil with
  | nil => rfl
  | cons first rest => simp [makePiecePlan, middlePieces_length]

theorem makePiecePlan_getD_zero (sil : List (ℤ × ℤ)) (total : ℤ) (h : sil ≠ []) :
    (makePiecePlan sil total).getD 0 dPiece =
      { piece_index := 1, start_ms := 0, end_ms := silEnd sil 0,
        duration_ms := silEnd sil 0, trim_leading_ms := 0 } := by
  cases sil with
  | nil => exact absurd rfl h
  | cons first rest => simp [makePiecePlan, silEnd]

/-- The `j`-th (0-based) plan entry for `1 ≤ j < m` is the middle piece
`[a_j, b_(j+1)]` of the silence7 strategy (1-based piece index `j + 1`). -/
theorem makePiecePlan_getD_mid (sil : List (ℤ × ℤ)) (total : ℤ) (j : ℕ)
    (hj1 : 1 ≤ j) (hj : j < sil.length) :
    (makePiecePlan sil total).getD j dPiece =
      { piece_index := j + 1, start_ms := silStart sil (j - 1),
        end_ms := silEnd sil j,
        duration_ms := silEnd sil j - silStart sil (j - 1),
        trim_leading_ms := max 0 (silEnd sil (j - 1) - silStart sil (j - 1)) } := by
  match sil, j, hj1 with
  | first :: rest, k + 1, _ =>
    have hk : k < rest.length := by simpa using hj
    simp only [makePiecePlan]
    rw [List.getD_cons_succ,
      List.getD_append _ _ _ _ (by rw [middlePieces_length]; exact hk),
      middlePieces_getD rest first 2 k hk]
    have h2 : rest.getD k (0, 0) = (first :: rest).getD (k + 1) (0, 0) := by
      rw [List.getD_cons_succ]
    simp [silStart, silEnd, ← h2, Nat.add_comm 2 k, Nat.add_comm 1 k]

theorem makePiecePlan_getD_last (sil : List (ℤ × ℤ)) (total : ℤ) (h : sil ≠ []) :
    (makePiecePlan sil total).getD sil.length dPiece =
      { piece_index := sil.length + 1, start_ms := silStart sil (sil.length - 1),
        end_ms := total,
        duration_ms := total - silStart sil (sil.length - 1),
        trim_leading_ms :=
          max 0 (silEnd sil (sil.length - 1) - silStart sil (sil.length - 1)) } := by
  cases sil with
  | nil => exact absurd rfl h
  | cons first rest =>
    have hmid : (middlePieces first rest 2).length = rest.length :=
      middlePieces_length rest first 2
    have hl : (first :: rest).getLastD (0, 0) = (first :: rest).getD rest.length (0, 0) := by
      rw [getLastD_eq_getD]; norm_num
    simp only [makePiecePlan, hl, List.length_cons]
    rw [List.getD_cons_succ,
      List.getD_append_right _ _ _ _ (le_of_eq hmid),
      hmid, Nat.sub_self, List.getD_cons_zero]
    simp [silStart, silEnd]

/-- **C6.** The silence7 piece plan built from `m ≥ 1` selected intervals
`(a_1,b_1), …, (a_m,b_m)` (1-based; here `silStart sil (k-1) = a_k`,
`silEnd sil (k-1) = b_k`) has exactly `m + 1` pieces: piece 1 is
`[0, b_1]` with zero leading trim, piece `i` (`2 ≤ i ≤ m`) is
`[a_(i-1), b_i]` with `trim_leading_ms = max(0, b_(i-1) - a_(i-1))`, and
the final piece `m + 1` is `[a_m, total_ms]` with
`trim_leading_ms = max(0, b_m - a_m)`; for `m = 0` the plan is the single
whole-file piece `[0, total_ms]` with zero trim. -/
theorem makePiecePlan_structure (sil : List (ℤ × ℤ)) (total : ℤ) :
    (sil = [] →
      makePiecePlan sil total =
        [{ piece_index := 1, start_ms := 0, end_ms := total,
           duration_ms := total, trim_leading_ms := 0 }]) ∧
    (∀ m, sil.length = m → 1 ≤ m →
      (makePiecePlan sil total).length = m + 1 ∧
      (makePiecePlan sil total).getD 0 dPiece =
        { piece_index := 1, start_ms := 0, end_ms := silEnd sil 0,
          duration_ms := silEnd sil 0, trim_leading_ms := 0 } ∧
      (∀ i, 2 ≤ i → i ≤ m →
        (makePiecePlan sil total).getD (i - 1) dPiece =
          { piece_index := i, start_ms := silStart sil (i - 2),
            end_ms := silEnd sil (i - 1),
            duration_ms := silEnd sil (i - 1) - silStart sil (i - 2),
            trim_leading_ms := max 0 (silEnd sil (i - 2) - silStart sil (i - 2)) }) ∧
      (makePiecePlan sil total).getD m dPiece =
        { piece_index := m + 1, start_ms := silStart sil (m - 1), end_ms := total,
          duration_ms := total - silStart sil (m - 1),
          trim_leading_ms := max 0 (silEnd sil (m - 1) - silStart sil (m - 1)) }) := by
  refine ⟨fun h => by subst h; rfl, fun m hm h1 => ?_⟩
  have hne : sil ≠ [] := by
    intro h; subst h; simp at hm; omega
  subst hm
  refine ⟨makePiecePlan_length sil total, makePiecePlan_getD_zero sil total hne, ?_,
    makePiecePlan_getD_last sil total hne⟩
  intro i h2 hi
  have := makePiecePlan_getD_mid sil total (i - 1) (by omega) (by omega)
  rw [this]
  have h3 : i - 1 + 1 = i := by omega
  have h4 : i - 1 - 1 = i - 2 := by omega
  rw [h3, h4]

/-! ## Plan partition invariant (claim C8) -/

theorem scanBest_eq_some (l : List (ℤ × ℤ)) (t : ℚ) (acc : Option ((ℤ × ℤ) × ℚ))
    (r : (ℤ × ℤ) × ℚ) (h : scanBest l t acc = some r) :
    r.1 ∈ l ∨ acc = some r := by
  induction l generalizing acc with
  | nil => exact Or.inr h
  | cons s rest ih =>
    cases acc with
    | none =>
      rcases ih _ h with h' | h'
      · exact Or.inl (List.mem_cons_of_mem _ h')
      · refine Or.inl ?_
        obtain rfl : (s, |silenceMidSec s - t|) = r := by injection h'
        exact List.mem_cons_self _ _
    | some b =>
      simp only [scanBest] at h
      split at h
      · rcases ih _ h with h' | h'
        · exact Or.inl (List.mem_cons_of_mem _ h')
        · refine Or.inl ?_
          obtain rfl : (s, |silenceMidSec s - t|) = r := by injection h'
          exact List.mem_cons_self _ _
      · rcases ih _ h with h' | h'
        · exact Or.inl (List.mem_cons_of_mem _ h')
        · exact Or.inr h'

theorem selectedSilencesOf_subset (M : ℚ) (segs : List (ℤ × ℤ)) (p : ℤ × ℤ)
    (hp : p ∈ selectedSilencesOf M segs) : p ∈ segs := by
  rcases List.mem_filterMap.1 hp with ⟨tm, _, h⟩
  rcases Option.map_eq_some'.1 h with ⟨r, hr, hr1⟩
  rcases scanBest_eq_some segs (tm * 60) none r hr with h' | h'
  · exact hr1 ▸ h'
  · cases h'

theorem silStart_le_silEnd (sil : List (ℤ × ℤ)) (hsil : ∀ p ∈ sil, p.1 ≤ p.2)
    (j : ℕ) (hj : j < sil.length) : silStart sil j ≤ silEnd sil j := by
  have := List.getD_eq_getElem sil (0, 0) hj
  rw [silStart, silEnd, this]
  exact hsil _ (List.getElem_mem hj)

theorem makePiecePlan_start_of_pos (sil : List (ℤ × ℤ)) (total : ℤ) (k : ℕ)
    (h1 : 1 ≤ k) (hk : k ≤ sil.length) :
    ((makePiecePlan sil total).getD k dPiece).start_ms = silStart sil (k - 1) := by
  rcases eq_or_lt_of_le hk with h | h
  · subst h
    rw [makePiecePlan_getD_last sil total
      (by intro hnil; rw [hnil] at h1; simp at h1)]
  · rw [makePiecePlan_getD_mid sil total k h1 h]

theorem makePiecePlan_end_of_lt (sil : List (ℤ × ℤ)) (total : ℤ) (k : ℕ)
    (hk : k < sil.length) :
    ((makePiecePlan sil total).getD k dPiece).end_ms = silEnd sil k := by
  cases Nat.eq_zero_or_pos k with
  | inl h =>
    subst h
    rw [makePiecePlan_getD_zero sil total (by intro hnil; subst hnil; simp at hk)]
  | inr h => rw [makePiecePlan_getD_mid sil total k h hk]

theorem makePiecePlan_chain (sil : List (ℤ × ℤ)) (total : ℤ)
    (hsil : ∀ p ∈ sil, p.1 ≤ p.2) :
    List.Chain' (fun p q => q.start_ms ≤ p.end_ms) (makePiecePlan sil total) := by
  rw [List.chain'_iff_get]
  intro i hi
  rw [makePiecePlan_length] at hi
  have hi' : i < sil.length := by omega
  have g1 : (makePiecePlan sil total).get
      ⟨i, by rw [makePiecePlan_length]; omega⟩ =
      (makePiecePlan sil total).getD i dPiece := by
    rw [List.get_eq_getElem, List.getD_eq_getElem _ _ (by rw [makePiecePlan_length]; omega)]
  have g2 : (makePiecePlan sil total).get
      ⟨i + 1, by rw [makePiecePlan_length]; omega⟩ =
      (makePiecePlan sil total).getD (i + 1) dPiece := by
    rw [List.get_eq_getElem, List.getD_eq_getElem _ _ (by rw [makePiecePlan_length]; omega)]
  rw [g1, g2, makePiecePlan_end_of_lt sil total i hi',
    makePiecePlan_start_of_pos sil total (i + 1) (by omega) (by omega),
    Nat.add_sub_cancel]
  exact silStart_le_silEnd sil hsil i hi'

theorem makePiecePlan_piece_index (sil : List (ℤ × ℤ)) (total : ℤ) (j : ℕ)
    (hj : j < (makePiecePlan sil total).length) :
    ((makePiecePlan sil total).getD j dPiece).piece_index = j + 1 := by
  rw [makePiecePlan_length] at hj
  rcases Nat.eq_zero_or_pos j with h | h
  · subst h
    cases sil with
    | nil => rfl
    | cons first rest => rw [makePiecePlan_getD_zero _ total (by simp)]
  · rcases eq_or_lt_of_le (by omega : j + 1 ≤ sil.length + 1) with h' | h'
    · have hj' : j = sil.length := by omega
      subst hj'
      rw [makePiecePlan_getD_last sil total (by intro hnil; subst hnil; simp at h)]
    · rw [makePiecePlan_getD_mid sil total j h (by omega)]

/-- **C8.** Every plan the planner produces (from a silence list whose
intervals satisfy `start_ms ≤ end_ms`, as the detector's do) is nonempty,
starts at `0`, ends at `total_ms = int(total_duration_minutes * 60 * 1000)`,
carries consecutive 1-based `piece_index` values, and adjacent pieces
satisfy `pieces[i].end_ms ≥ pieces[i+1].start_ms` (overlap or touch, never a
gap). -/
theorem planPieces_partition (M : ℚ) (segs : List (ℤ × ℤ))
    (hseg : ∀ p ∈ segs, p.1 ≤ p.2) :
    planPieces M segs ≠ [] ∧
    ((planPieces M segs).getD 0 dPiece).start_ms = 0 ∧
    ((planPieces M segs).getLastD dPiece).end_ms = totalMsOf M ∧
    (∀ j, j < (planPieces M segs).length →
      ((planPieces M segs).getD j dPiece).piece_index = j + 1) ∧
    List.Chain' (fun p q => q.start_ms ≤ p.end_ms) (planPieces M segs) := by
  by_cases hM : M ≤ 20
  · refine ⟨by simp [planPieces, hM], by simp [planPieces, hM], by simp [planPieces, hM], ?_, ?_⟩
    · intro j hj
      have : j = 0 := by simpa [planPieces, hM] using hj
      subst this
      simp [planPieces, hM]
    · simp [planPieces, hM]
  · have hsel : ∀ p ∈ selectedSilencesOf M segs, p.1 ≤ p.2 :=
      fun p hp => hseg p (selectedSilencesOf_subset M segs p hp)
    have hplan : planPieces M segs =
        makePiecePlan (selectedSilencesOf M segs) (totalMsOf M) := by
      simp [planPieces, hM]
    rw [hplan]
    set sel := selectedSilencesOf M segs with hselDef
    refine ⟨?_, ?_, ?_, makePiecePlan_piece_index sel (totalMsOf M),
      makePiecePlan_chain sel (totalMsOf M) hsel⟩
    · intro h
      have := makePiecePlan_length sel (totalMsOf M)
      rw [h] at this
      simp at this
    · cases hs : sel with
      | nil => simp [makePiecePlan]
      | cons first rest =>
        rw [← hs, makePiecePlan_getD_zero sel (totalMsOf M) (by rw [hs]; simp)]
    · rw [getLastD_eq_getD, makePiecePlan_length, Nat.add_sub_cancel]
      cases hs : sel with
      | nil => simp [makePiecePlan]
      | cons first rest =>
        rw [← hs, makePiecePlan_getD_last sel (totalMsOf M) (by rw [hs]; simp)]

/-- Witness for `planPieces_partition`: a 21-minute file with one silence
interval. -/
theorem planPieces_partition_witness :
    planPieces 21 [((600000 : ℤ), (630000 : ℤ))] ≠ [] ∧
    ((planPieces 21 [((600000 : ℤ), (630000 : ℤ))]).getD 0 dPiece).start_ms = 0 ∧
    ((planPieces 21 [((600000 : ℤ), (630000 : ℤ))]).getLastD dPiece).end_ms =
      totalMsOf 21 ∧
    (∀ j, j < (planPieces 21 [((600000 : ℤ), (630000 : ℤ))]).length →
      ((planPieces 21 [((600000 : ℤ), (630000 : ℤ))]).getD j dPiece).piece_index = j + 1) ∧
    List.Chain' (fun p q => q.start_ms ≤ p.end_ms)
      (planPieces 21 [((600000 : ℤ), (630000 : ℤ))]) :=
  planPieces_partition 21 [((600000 : ℤ), (630000 : ℤ))]
    (by intro p hp; simp at hp; subst hp; norm_num)

/-! ## Piece counts (claim C10) -/

theorem scanBest_isSome_acc (l : List (ℤ × ℤ)) (t : ℚ) (b : (ℤ × ℤ) × ℚ) :
    (scanBest l t (some b)).isSome := by
  induction l generalizing b with
  | nil => rfl
  | cons s rest ih =>
    simp only [scanBest]
    split
    · exact ih _
    · exact ih _

theorem scanBest_isSome (l : List (ℤ × ℤ)) (t : ℚ) (h : l ≠ []) :
    (scanBest l t none).isSome := by
  cases l with
  | nil => exact absurd rfl h
  | cons s rest => exact scanBest_isSome_acc rest t _

theorem selectedSilencesOf_length (M : ℚ) (segs : List (ℤ × ℤ)) (h : segs ≠ []) :
    (selectedSilencesOf M segs).length = (numPiecesOf M - 1).toNat := by
  rw [selectedSilencesOf]
  have : ∀ tms : List ℚ,
      (tms.filterMap
        (fun tm => (scanBest segs (tm * 60) none).map (fun r => r.1))).length =
      tms.length := by
    intro tms
    induction tms with
    | nil => rfl
    | cons tm rest ih =>
      rw [List.filterMap_cons]
      rcases Option.isSome_iff_exists.1 (scanBest_isSome segs (tm * 60) h) with ⟨r, hr⟩
      rw [hr]
      simp [ih]
  rw [this]
  have hlen : ∀ (s n : ℕ) (f : ℕ → ℚ), ((List.range' s n).map f).length = n := by
    intro s n f
    rw [List.length_map, List.length_range']
  rw [targetMinutesOf, hlen]

/-- **C10.** When the silence list is nonempty and the duration exceeds 20
minutes, every one of the `n - 1` target split points selects a silence
interval (the skip branch never fires), selections are not deduplicated, so
`selected_silences` has exactly `n - 1` entries and the plan exactly
`n = max(2, round(total_duration_minutes / 5))` pieces. -/
theorem planPieces_count (M : ℚ) (segs : List (ℤ × ℤ)) (hM : 20 < M)
    (hne : segs ≠ []) :
    (selectedSilencesOf M segs).length = (numPiecesOf M - 1).toNat ∧
    ((planPieces M segs).length : ℤ) = numPiecesOf M := by
  refine ⟨selectedSilencesOf_length M segs hne, ?_⟩
  have hplan : planPieces M segs =
      makePiecePlan (selectedSilencesOf M segs) (totalMsOf M) := by
    simp [planPieces, not_le.2 hM]
  have h2 : (2 : ℤ) ≤ numPiecesOf M := le_max_left _ _
  rw [hplan, makePiecePlan_length, selectedSilencesOf_length M segs hne]
  omega

/-- Witness for `planPieces_count`: 21 minutes, one silence interval. -/
theorem planPieces_count_witness :
    (selectedSilencesOf 21 [((600000 : ℤ), (630000 : ℤ))]).length =
      (numPiecesOf 21 - 1).toNat ∧
    ((planPieces 21 [((600000 : ℤ), (630000 : ℤ))]).length : ℤ) = numPiecesOf 21 :=
  planPieces_count 21 [((600000 : ℤ), (630000 : ℤ))] (by norm_num) (by simp)

/-! ## Piece extraction (claim C9) -/

/-- Modelled from the spec's words for comparison with the code: the start
index of a piece "clamped to `[0, total_samples]`". -/
def clampedStartSample (p : Piece) (totalSamples sr : ℕ) : ℤ :=
  clamp (pieceStartSample p sr) 0 (totalSamples : ℤ)

/-- Modelled from the spec's words for comparison with the code: the end
index of a piece "clamped to `[0, total_samples]`". -/
def clampedEndSample (p : Piece) (totalSamples sr : ℕ) : ℤ :=
  clamp (pieceEndSample p sr) 0 (totalSamples : ℤ)

theorem clamp_skip_iff (s e T : ℤ) (hT : 0 ≤ T) :
    min T e ≤ max 0 s ↔ clamp e 0 T ≤ clamp s 0 T := by
  simp only [clamp, max_def, min_def]
  split_ifs <;> omega

theorem clamp_keep_start (s e T : ℤ) (hT : 0 ≤ T) (h : max 0 s < min T e) :
    clamp s 0 T = max 0 s := by
  simp only [max_def, min_def] at h
  simp only [clamp, max_def, min_def]
  split_ifs at h ⊢ <;> omega

theorem clamp_keep_end (s e T : ℤ) (hT : 0 ≤ T) (h : max 0 s < min T e) :
    clamp e 0 T = min T e := by
  simp only [max_def, min_def] at h
  simp only [clamp, max_def, min_def]
  split_ifs at h ⊢ <;> omega

/-- **C9.** The extractor keeps exactly the pieces whose start index (after
adding the leading-trim samples) and end index, both clamped to
`[0, total_samples]`, satisfy `start < end`, reporting those clamped
boundaries, and it skips the rest while still producing the remaining
pieces; in particular a piece requesting `start_ms=5000, end_ms=4000` never
appears in the output. -/
theorem extractPieces_spec (pieces : List Piece) (T sr : ℕ) :
    (extractPieces pieces T sr =
      (pieces.filter
          (fun p => decide (clampedStartSample p T sr < clampedEndSample p T sr))).map
        (fun p => { piece_index := p.piece_index, start_ms := p.start_ms,
                    end_ms := p.end_ms,
                    actual_start_sample := clampedStartSample p T sr,
                    actual_end_sample := clampedEndSample p T sr,
                    trim_leading_ms := p.trim_leading_ms })) ∧
    ∀ T' sr' : ℕ, extractPieces
      [{ piece_index := 1, start_ms := 5000, end_ms := 4000, duration_ms := -1000,
         trim_leading_ms := 0 }] T' sr' = [] := by
  have hT : (0 : ℤ) ≤ (T : ℤ) := Int.natCast_nonneg T
  constructor
  · induction pieces with
    | nil => rfl
    | cons p rest ih =>
      rw [extractPieces, List.filterMap_cons, List.filter_cons]
      by_cases h : min (T : ℤ) (pieceEndSample p sr) ≤ max 0 (pieceStartSample p sr)
      · have hd : decide (clampedStartSample p T sr < clampedEndSample p T sr) = false := by
          rw [decide_eq_false_iff_not, not_lt]
          exact (clamp_skip_iff _ _ _ hT).1 h
        rw [hd]
        simp only [Bool.false_eq_true, if_false, if_pos h]
        exact ih
      · have hlt : max 0 (pieceStartSample p sr) < min (T : ℤ) (pieceEndSample p sr) :=
          lt_of_not_le h
        have hd : decide (clampedStartSample p T sr < clampedEndSample p T sr) = true := by
          rw [decide_eq_true_iff]
          rw [clampedStartSample, clampedEndSample, clamp_keep_start _ (pieceEndSample p sr) _ hT hlt,
            clamp_keep_end (pieceStartSample p sr) _ _ hT hlt]
          exact hlt
        rw [hd]
        simp only [if_neg h, if_true, List.map_cons]
        refine congrArg₂ List.cons ?_ ih
        rw [clampedStartSample, clampedEndSample,
          clamp_keep_start _ (pieceEndSample p sr) _ hT hlt,
          clamp_keep_end (pieceStartSample p sr) _ _ hT hlt]
  · intro T' sr'
    rw [extractPieces, List.filterMap_cons]
    have hs : pieceStartSample
        { piece_index := 1, start_ms := 5000, end_ms := 4000, duration_ms := -1000,
          trim_leading_ms := 0 } sr' = pythonTrunc ((5000 : ℚ) / 1000 * (sr' : ℚ)) := by
      rw [pieceStartSample]
      norm_num
    have he : pieceEndSample
        { piece_index := 1, start_ms := 5000, end_ms := 4000, duration_ms := -1000,
          trim_leading_ms := 0 } sr' = pythonTrunc ((4000 : ℚ) / 1000 * (sr' : ℚ)) := by
      rw [pieceEndSample]
      norm_num
    have hmono : pythonTrunc ((4000 : ℚ) / 1000 * (sr' : ℚ)) ≤
        pythonTrunc ((5000 : ℚ) / 1000 * (sr' : ℚ)) := by
      have h45 : ((4000 : ℚ) / 1000 * (sr' : ℚ)) ≤ ((5000 : ℚ) / 1000 * (sr' : ℚ)) := by
        have : (0 : ℚ) ≤ (sr' : ℚ) := Nat.cast_nonneg sr'
        nlinarith
      have h4 : (0 : ℚ) ≤ (4000 : ℚ) / 1000 * (sr' : ℚ) := by positivity
      have h5 : (0 : ℚ) ≤ (5000 : ℚ) / 1000 * (sr' : ℚ) := by positivity
      rw [pythonTrunc, pythonTrunc, if_pos h4, if_pos h5, ratFloor_eq, ratFloor_eq]
      exact Int.floor_le_floor h45
    have hskip : min (T' : ℤ)
        (pieceEndSample
          { piece_index := 1, start_ms := 5000, end_ms := 4000, duration_ms := -1000,
            trim_leading_ms := 0 } sr') ≤
        max 0 (pieceStartSample
          { piece_index := 1, start_ms := 5000, end_ms := 4000, duration_ms := -1000,
            trim_leading_ms := 0 } sr') := by
      rw [hs, he]
      exact le_trans (min_le_right _ _) (le_trans hmono (le_max_right _ _))
    simp only [if_pos hskip]
    rfl

/-! ## Threshold estimator (claim C5) -/

/-- `np.mean(x ** 2)` over the reals. -/
noncomputable def meanSqR (x : List ℝ) : ℝ :=
  (x.map fun s => s * s).sum / (x.length : ℝ)

/-- `rms = sqrt(np.mean(x ** 2))` over the reals. -/
noncomputable def rmsR (x : List ℝ) : ℝ :=
  Real.sqrt (meanSqR x)

/-- `audio_dbfs(x)`: `-inf` (encoded `none`) for an empty signal or
`rms <= 0` (a real-valued `rms` is always finite, so the source's
`not math.isfinite(rms)` guard never fires in the model), otherwise
`20 * log10(rms)`. -/
noncomputable def audioDbfs (x : List ℝ) : Option ℝ :=
  if x = [] then none
  else if rmsR x ≤ 0 then none
  else some (20 * Real.logb 10 (rmsR x))

/-- The working silence threshold:
`silence_thresh_db` itself when the caller supplied one, otherwise
`-40.0 if not math.isfinite(audio_db) else audio_db - 16.0`. -/
noncomputable def workingThresh (explicitT : Option ℝ) (x : List ℝ) : ℝ :=
  match explicitT with
  | some t => t
  | none =>
      match audioDbfs x with
      | none => -40
      | some db => db - 16

/-- **C5.** `audio_dbfs` is `20*log10(rms)` of the mono signal and `-inf`
(`none`) exactly when the signal is empty or `rms ≤ 0` — in particular for
an all-zero signal — and with no explicit threshold the working threshold is
`audio_dbfs - 16.0`, or exactly `-40.0` when `audio_dbfs` is non-finite. -/
theorem thresholdEstimator_spec (x : List ℝ) :
    (audioDbfs x = none ↔ x = [] ∨ rmsR x ≤ 0) ∧
    ((∀ s ∈ x, s = 0) → audioDbfs x = none ∧ workingThresh none x = -40) ∧
    (∀ db, audioDbfs x = some db →
      db = 20 * Real.logb 10 (rmsR x) ∧
      workingThresh none x = 20 * Real.logb 10 (rmsR x) - 16) := by
  refine ⟨?_, ?_, ?_⟩
  · rw [audioDbfs]
    split_ifs with h1 h2
    · simp [h1]
    · simp [h2]
    · simp [h1, h2]
  · intro hz
    have hsq : (x.map fun s => s * s).sum = 0 := by
      apply List.sum_eq_zero
      intro y hy
      rcases List.mem_map.1 hy with ⟨s, hs, rfl⟩
      rw [hz s hs, mul_zero]
    have hrms : rmsR x = 0 := by
      rw [rmsR, meanSqR, hsq, zero_div, Real.sqrt_zero]
    have hdb : audioDbfs x = none := by
      rw [audioDbfs]
      split_ifs with h1 h2
      · rfl
      · rfl
      · exact absurd (le_of_eq hrms) h2
    exact ⟨hdb, by rw [workingThresh, hdb]⟩
  · intro db hdb
    rw [audioDbfs] at hdb
    split_ifs at hdb with h1 h2
    obtain rfl : 20 * Real.logb 10 (rmsR x) = db := by injection hdb
    refine ⟨rfl, ?_⟩
    rw [workingThresh, audioDbfs, if_neg h1, if_neg h2]

/-! ## Run coalescing and window classification (claim C4) -/

theorem getD_of_drop_cons {α : Type _} {L rest : List α} {b d : α} {i : ℕ}
    (h : L.drop i = b :: rest) : L.getD i d = b := by
  have h1 : L[i]? = some b := by
    rw [← List.head?_drop, h]
    rfl
  rw [List.getD_eq_getD_get?, List.get?_eq_getElem?, h1]
  rfl

theorem drop_succ_of_drop_cons {α : Type _} {L rest : List α} {b : α} {i : ℕ}
    (h : L.drop i = b :: rest) : L.drop (i + 1) = rest := by
  rw [← List.drop_drop 1 i L, h]
  rfl

theorem lt_length_of_drop_cons {α : Type _} {L rest : List α} {b : α} {i : ℕ}
    (h : L.drop i = b :: rest) : i < L.length := by
  by_contra hc
  rw [List.drop_eq_nil_iff.2 (le_of_not_lt hc)] at h
  exact List.cons_ne_nil b rest h.symm

/-- `[s, e)` is a maximal run of `true` entries of the boolean window
array `l`: nonempty, within bounds, all-`true`, and not extendable on
either side. -/
def isMaxRun (l : List Bool) (s e : ℕ) : Prop :=
  s < e ∧ e ≤ l.length ∧
  (∀ j, s ≤ j → j < e → l.getD j false = true) ∧
  (s = 0 ∨ l.getD (s - 1) false = false) ∧
  (e = l.length ∨ l.getD e false = false)

/-- Correctness of the coalescing loop, relative to the full array `L`:
when scanning the suffix `L.drop i` with open-run state `st` (whose
invariants are the hypotheses), the emitted pairs are exactly the maximal
`true` runs of `L` that either close the open run or start at `i` or
later. -/
theorem coalesceAux_mem_iff (L : List Bool) :
    ∀ (l : List Bool) (i : ℕ) (st : Option ℕ), L.drop i = l → i ≤ L.length →
    (match st with
     | none => i = 0 ∨ L.getD (i - 1) false = false
     | some s₀ => s₀ < i ∧ (∀ j, s₀ ≤ j → j < i → L.getD j false = true) ∧
         (s₀ = 0 ∨ L.getD (s₀ - 1) false = false)) →
    ∀ s e, ((s, e) ∈ coalesceAux l i st ↔
      isMaxRun L s e ∧ ((∃ s₀, st = some s₀ ∧ s = s₀) ∨ i ≤ s)) := by
  intro l
  induction l with
  | nil =>
    intro i st hdrop hile hst s e
    have hiL : i = L.length :=
      le_antisymm hile (List.drop_eq_nil_iff.1 hdrop)
    cases st with
    | none =>
      simp only [coalesceAux, List.not_mem_nil, false_iff]
      rintro ⟨⟨hse, helen, -, -, -⟩, (⟨s₀, h, -⟩ | his)⟩
      · cases h
      · omega
    | some s₀ =>
      rcases hst with ⟨hs₀, hrange, hleft⟩
      simp only [coalesceAux, List.mem_singleton, Prod.mk.injEq]
      constructor
      · rintro ⟨h1, h2⟩
        refine ⟨⟨by omega, by omega, ?_, ?_, ?_⟩, Or.inl ⟨s₀, rfl, h1⟩⟩
        · intro j hj1 hj2
          exact hrange j (by omega) (by omega)
        · rw [h1]
          exact hleft
        · rw [h2]
          exact Or.inl hiL
      · rintro ⟨⟨hse, helen, hrun, hl, hr⟩, hd⟩
        rcases hd with ⟨w, hw, hsw⟩ | his
        · have hs : s₀ = s := by
            have h' : s₀ = w := by injection hw
            omega
          refine ⟨hs.symm, ?_⟩
          by_contra hne
          rcases Nat.lt_or_ge e i with hlt | hge
          · have ht := hrange e (by omega) hlt
            rcases hr with h' | h'
            · omega
            · rw [h'] at ht
              cases ht
          · have hie : i < e := by omega
            have ht := hrun i (by omega) hie
            rw [List.getD_eq_default _ _ (by omega)] at ht
            cases ht
        · omega
  | cons b rest ih =>
    intro i st hdrop hile hst s e
    have hb : L.getD i false = b := getD_of_drop_cons hdrop
    have hdrop1 : L.drop (i + 1) = rest := drop_succ_of_drop_cons hdrop
    have hilt : i < L.length := lt_length_of_drop_cons hdrop
    cases st with
    | none =>
      cases b with
      | false =>
        have hstep : coalesceAux (false :: rest) i none = coalesceAux rest (i + 1) none := by
          simp [coalesceAux]
        rw [hstep, ih (i + 1) none hdrop1 (by omega) (Or.inr (by simpa using hb))]
        constructor
        · rintro ⟨hrun, (⟨w, h, -⟩ | his)⟩
          · cases h
          · exact ⟨hrun, Or.inr (by omega)⟩
        · rintro ⟨hrun, (⟨w, h, -⟩ | his)⟩
          · cases h
          · refine ⟨hrun, Or.inr ?_⟩
            rcases Nat.eq_or_lt_of_le his with heq | h
            · have ht := hrun.2.2.1 s (le_refl s) hrun.1
              rw [← heq, hb] at ht
              cases ht
            · omega
      | true =>
        have hstep : coalesceAux (true :: rest) i none = coalesceAux rest (i + 1) (some i) := by
          simp [coalesceAux]
        rw [hstep, ih (i + 1) (some i) hdrop1 (by omega)
          ⟨by omega, fun j h1 h2 => by
            obtain rfl : j = i := by omega
            exact hb, hst⟩]
        constructor
        · rintro ⟨hrun, (⟨w, h, hsw⟩ | his)⟩
          · have hiw : i = w := by injection h
            exact ⟨hrun, Or.inr (by omega)⟩
          · exact ⟨hrun, Or.inr (by omega)⟩
        · rintro ⟨hrun, (⟨w, h, -⟩ | his)⟩
          · cases h
          · rcases Nat.eq_or_lt_of_le his with heq | h
            · exact ⟨hrun, Or.inl ⟨s, by rw [heq], rfl⟩⟩
            · exact ⟨hrun, Or.inr (by omega)⟩
    | some s₀ =>
      rcases hst with ⟨hs₀lt, hrange, hleft⟩
      cases b with
      | false =>
        have hstep : coalesceAux (false :: rest) i (some s₀) =
            (s₀, i) :: coalesceAux rest (i + 1) none := by
          simp [coalesceAux]
        rw [hstep, List.mem_cons, Prod.mk.injEq,
          ih (i + 1) none hdrop1 (by omega) (Or.inr (by simpa using hb))]
        constructor
        · rintro (⟨h1, h2⟩ | ⟨hrun, (⟨w, h, -⟩ | his)⟩)
          · refine ⟨⟨by omega, by omega, ?_, ?_, ?_⟩, Or.inl ⟨s₀, rfl, h1⟩⟩
            · intro j hj1 hj2
              exact hrange j (by omega) (by omega)
            · rw [h1]
              exact hleft
            · rw [h2]
              exact Or.inr hb
          · cases h
          · exact ⟨hrun, Or.inr (by omega)⟩
        · rintro ⟨⟨hse, helen, hrun, hl, hr⟩, hd⟩
          rcases hd with ⟨w, hw, hsw⟩ | his
          · have hs : s₀ = s := by
              have h' : s₀ = w := by injection hw
              omega
            refine Or.inl ⟨hs.symm, ?_⟩
            by_contra hne
            rcases Nat.lt_or_ge e i with hlt | hge
            · have ht := hrange e (by omega) hlt
              rcases hr with h' | h'
              · omega
              · rw [h'] at ht
                cases ht
            · have hie : i < e := by omega
              have ht := hrun i (by omega) hie
              rw [hb] at ht
              cases ht
          · refine Or.inr ⟨⟨hse, helen, hrun, hl, hr⟩, Or.inr ?_⟩
            rcases Nat.eq_or_lt_of_le his with heq | h
            · have ht := hrun s (le_refl s) hse
              rw [← heq, hb] at ht
              cases ht
            · omega
      | true =>
        have hstep : coalesceAux (true :: rest) i (some s₀) =
            coalesceAux rest (i + 1) (some s₀) := by
          simp [coalesceAux]
        rw [hstep, ih (i + 1) (some s₀) hdrop1 (by omega)
          ⟨by omega, fun j h1 h2 => by
            rcases Nat.lt_or_ge j i with h' | h'
            · exact hrange j h1 h'
            · obtain rfl : j = i := by omega
              exact hb, hleft⟩]
        constructor
        · rintro ⟨hrun, (⟨w, h, hsw⟩ | his)⟩
          · exact ⟨hrun, Or.inl ⟨w, h, hsw⟩⟩
          · exact ⟨hrun, Or.inr (by omega)⟩
        · rintro ⟨hrun, (⟨w, h, hsw⟩ | his)⟩
          · exact ⟨hrun, Or.inl ⟨w, h, hsw⟩⟩
          · rcases Nat.eq_or_lt_of_le his with heq | h
            · obtain ⟨hse, helen, hrunj, hl, hr⟩ := hrun
              rcases hl with hz | hl
              · omega
              · have ht := hrange (s - 1) (by omega) (by omega)
                rw [hl] at ht
                cases ht
            · exact ⟨⟨hrun.1, hrun.2.1, hrun.2.2.1, hrun.2.2.2.1, hrun.2.2.2.2⟩,
                Or.inr (by omega)⟩

/-- Membership characterisation of `silentRuns`. -/
theorem silentRuns_mem_iff (L : List Bool) (s e : ℕ) :
    (s, e) ∈ silentRuns L ↔ isMaxRun L s e := by
  rw [silentRuns, coalesceAux_mem_iff L L 0 none rfl (Nat.zero_le _) (Or.inl rfl)]
  constructor
  · rintro ⟨hrun, -⟩
    exact hrun
  · intro hrun
    exact ⟨hrun, Or.inr (Nat.zero_le _)⟩

/-- Membership characterisation of the reported candidate segments. -/
theorem segmentsOf_mem_iff (silent : List Bool) (seek minLen : ℕ) (p : ℤ × ℤ) :
    p ∈ segmentsOf silent seek minLen ↔
      ∃ s e : ℕ, p = ((s : ℤ) * (seek : ℤ), (e : ℤ) * (seek : ℤ)) ∧
        isMaxRun silent s e ∧ minLen ≤ (e - s) * seek := by
  rw [segmentsOf, List.mem_map]
  constructor
  · rintro ⟨⟨s, e⟩, hr, rfl⟩
    rcases List.mem_filter.1 hr with ⟨hmem, hcond⟩
    exact ⟨s, e, rfl, (silentRuns_mem_iff silent s e).1 hmem, of_decide_eq_true hcond⟩
  · rintro ⟨s, e, rfl, hrun, hlen⟩
    exact ⟨(s, e), List.mem_filter.2
      ⟨(silentRuns_mem_iff silent s e).2 hrun, decide_eq_true hlen⟩, rfl⟩

/-- The window loudness test as the source writes it:
`seg_db < silence_thresh_db` where
`seg_db = float("-inf") if rms <= 0.0 else 20.0 * math.log10(rms)`. -/
def silentDb (seg : List ℝ) (t : ℝ) : Prop :=
  rmsR seg ≤ 0 ∨ 20 * Real.logb 10 (rmsR seg) < t

theorem sumSq_cast (seg : List ℚ) :
    (((seg.map fun s => s * s).sum : ℚ) : ℝ) =
      ((seg.map (fun q : ℚ => (q : ℝ))).map fun s => s * s).sum := by
  induction seg with
  | nil => simp
  | cons a l ih =>
    simp only [List.map_cons, List.sum_cons, Rat.cast_add, Rat.cast_mul]
    rw [ih]

theorem meanSqR_cast (seg : List ℚ) :
    meanSqR (seg.map (fun q : ℚ => (q : ℝ))) = ((meanSq seg : ℚ) : ℝ) := by
  rw [meanSqR, meanSq, ← sumSq_cast, Rat.cast_div, Rat.cast_natCast,
    List.length_map]

/-- The executable squared-threshold window test agrees with the source's
dB-scale test: for `tsq = (10^(t/20))^2` a window is classified silent
exactly when its RMS loudness in dB is strictly below `t`. -/
theorem silentWindow_iff_db (seg : List ℚ) (t : ℝ) (tsq : ℚ)
    (htsq : (tsq : ℝ) = ((10 : ℝ) ^ (t / 20)) ^ 2) :
    (silentWindow tsq seg = true ↔ silentDb (seg.map (fun q : ℚ => (q : ℝ))) t) := by
  have hcpos : (0 : ℝ) < (10 : ℝ) ^ (t / 20) :=
    Real.rpow_pos_of_pos (by norm_num) _
  have hmean : meanSqR (seg.map (fun q : ℚ => (q : ℝ))) = ((meanSq seg : ℚ) : ℝ) :=
    meanSqR_cast seg
  have hmnn : 0 ≤ meanSqR (seg.map (fun q : ℚ => (q : ℝ))) := by
    rw [meanSqR]
    apply div_nonneg
    · apply List.sum_nonneg
      intro y hy
      rcases List.mem_map.1 hy with ⟨s, hs, rfl⟩
      exact mul_self_nonneg s
    · exact Nat.cast_nonneg _
  rw [silentWindow, decide_eq_true_iff]
  have hcast : meanSq seg < tsq ↔
      meanSqR (seg.map (fun q : ℚ => (q : ℝ))) < (tsq : ℝ) := by
    rw [hmean]
    exact (Rat.cast_lt (K := ℝ)).symm
  rw [hcast, htsq, silentDb]
  rcases eq_or_lt_of_le hmnn with hm0 | hmpos
  · constructor
    · intro _
      left
      rw [rmsR, ← hm0, Real.sqrt_zero]
    · intro _
      rw [← hm0]
      positivity
  · have hrmspos : 0 < rmsR (seg.map (fun q : ℚ => (q : ℝ))) := Real.sqrt_pos.2 hmpos
    have hsq : rmsR (seg.map (fun q : ℚ => (q : ℝ))) ^ 2 =
        meanSqR (seg.map (fun q : ℚ => (q : ℝ))) := Real.sq_sqrt hmnn
    constructor
    · intro h
      right
      have hlog : Real.logb 10 (rmsR (seg.map (fun q : ℚ => (q : ℝ)))) < t / 20 := by
        rw [Real.logb_lt_iff_lt_rpow (by norm_num : (1 : ℝ) < 10) hrmspos]
        rw [← hsq] at h
        exact (pow_lt_pow_iff_left₀ (le_of_lt hrmspos) (le_of_lt hcpos)
          (by norm_num)).1 h
      linarith
    · rintro (h | h)
      · exact absurd h (not_le.2 hrmspos)
      · have hlog : Real.logb 10 (rmsR (seg.map (fun q : ℚ => (q : ℝ)))) < t / 20 := by
          linarith
        rw [Real.logb_lt_iff_lt_rpow (by norm_num : (1 : ℝ) < 10) hrmspos] at hlog
        rw [← hsq]
        exact pow_lt_pow_left₀ hlog (le_of_lt hrmspos) (by norm_num)

/-- **C4.** A window is classified silent iff its windowed RMS loudness in
dB is strictly below `silence_thresh_db` (stated via the squared linear
threshold `tsq = (10^(t/20))^2` the executable detector carries), and the
detector reports the pre-clamp candidate interval
`[s*seek_step_ms, e*seek_step_ms]` exactly for the maximal silent runs
`[s, e)` with `(e - s) * seek_step_ms ≥ min_silence_len_ms`; shorter runs
yield nothing and are never merged. -/
theorem detectorWindows_spec :
    (∀ (seg : List ℚ) (t : ℝ) (tsq : ℚ),
      (tsq : ℝ) = ((10 : ℝ) ^ (t / 20)) ^ 2 →
      (silentWindow tsq seg = true ↔ silentDb (seg.map (fun q : ℚ => (q : ℝ))) t)) ∧
    (∀ (silent : List Bool) (seek minLen : ℕ) (p : ℤ × ℤ),
      p ∈ segmentsOf silent seek minLen ↔
        ∃ s e : ℕ, p = ((s : ℤ) * (seek : ℤ), (e : ℤ) * (seek : ℤ)) ∧
          isMaxRun silent s e ∧ minLen ≤ (e - s) * seek) :=
  ⟨silentWindow_iff_db, segmentsOf_mem_iff⟩

/-! ## Detector interval invariants (claim C3) -/

theorem pythonRound_nonneg (q : ℚ) (h : 0 ≤ q) : 0 ≤ pythonRound q := by
  have hf : (0 : ℤ) ≤ ⌊q⌋ := Int.floor_nonneg.2 h
  rw [pythonRound, ratFloor_eq]
  split_ifs <;> omega

theorem audioMsOf_nonneg (len sr : ℕ) : 0 ≤ audioMsOf len sr := by
  apply pythonRound_nonneg
  positivity

theorem clamp_mono {a b lo hi : ℤ} (h : a ≤ b) : clamp a lo hi ≤ clamp b lo hi :=
  max_le_max (le_refl lo) (min_le_min (le_refl hi) h)

theorem clamp_lb (v lo hi : ℤ) : lo ≤ clamp v lo hi := le_max_left _ _

theorem clamp_ub (v lo hi : ℤ) (h : lo ≤ hi) : clamp v lo hi ≤ hi :=
  max_le h (min_le_left _ _)

/-- The runs the coalescing loop emits are strictly ordered, start at or
after the open-run start (or the scan position), and are nonempty. -/
theorem coalesceAux_pairwise (l : List Bool) :
    ∀ (i : ℕ) (st : Option ℕ),
    (match st with | none => True | some s₀ => s₀ < i) →
    List.Pairwise (fun p q : ℕ × ℕ => p.2 < q.1) (coalesceAux l i st) ∧
    (∀ p ∈ coalesceAux l i st,
      (match st with | none => i ≤ p.1 | some s₀ => s₀ ≤ p.1) ∧ p.1 < p.2) := by
  induction l with
  | nil =>
    intro i st hst
    cases st with
    | none => exact ⟨List.Pairwise.nil, by intro p hp; cases hp⟩
    | some s₀ =>
      refine ⟨List.pairwise_singleton _ _, ?_⟩
      intro p hp
      rcases List.mem_singleton.1 hp with rfl
      exact ⟨le_refl _, hst⟩
  | cons b rest ih =>
    intro i st hst
    cases st with
    | none =>
      cases b with
      | false =>
        have hstep : coalesceAux (false :: rest) i none =
            coalesceAux rest (i + 1) none := by
          simp [coalesceAux]
        rw [hstep]
        rcases ih (i + 1) none trivial with ⟨hpw, hbd⟩
        exact ⟨hpw, fun p hp => ⟨by have := (hbd p hp).1; omega, (hbd p hp).2⟩⟩
      | true =>
        have hstep : coalesceAux (true :: rest) i none =
            coalesceAux rest (i + 1) (some i) := by
          simp [coalesceAux]
        rw [hstep]
        rcases ih (i + 1) (some i) (by omega) with ⟨hpw, hbd⟩
        exact ⟨hpw, fun p hp => ⟨(hbd p hp).1, (hbd p hp).2⟩⟩
    | some s₀ =>
      cases b with
      | true =>
        have hstep : coalesceAux (true :: rest) i (some s₀) =
            coalesceAux rest (i + 1) (some s₀) := by
          simp [coalesceAux]
        rw [hstep]
        rcases ih (i + 1) (some s₀) (by omega) with ⟨hpw, hbd⟩
        exact ⟨hpw, fun p hp => ⟨(hbd p hp).1, (hbd p hp).2⟩⟩
      | false =>
        have hstep : coalesceAux (false :: rest) i (some s₀) =
            (s₀, i) :: coalesceAux rest (i + 1) none := by
          simp [coalesceAux]
        rw [hstep]
        rcases ih (i + 1) none trivial with ⟨hpw, hbd⟩
        refine ⟨List.Pairwise.cons ?_ hpw, ?_⟩
        · intro q hq
          have := (hbd q hq).1
          show i < q.1
          omega
        · intro p hp
          rcases List.mem_cons.1 hp with rfl | hp'
          · exact ⟨le_refl _, hst⟩
          · have := hbd p hp'
            exact ⟨by omega, this.2⟩

/-- The reported candidate segments are strictly ordered with positive
length, before clamping. -/
theorem segmentsOf_pairwise (silent : List Bool) (seek minLen : ℕ) :
    List.Pairwise (fun p q : ℤ × ℤ => p.2 ≤ q.1)
      (segmentsOf silent seek minLen) ∧
    ∀ p ∈ segmentsOf silent seek minLen, 0 ≤ p.1 ∧ p.1 ≤ p.2 := by
  rcases coalesceAux_pairwise silent 0 none trivial with ⟨hpw, hbd⟩
  constructor
  · rw [segmentsOf, List.pairwise_map]
    refine (hpw.filter _).imp ?_
    intro a b h
    have hcast : (a.2 : ℤ) ≤ (b.1 : ℤ) := by exact_mod_cast le_of_lt h
    exact mul_le_mul_of_nonneg_right hcast (Int.natCast_nonneg seek)
  · intro p hp
    rw [segmentsOf, List.mem_map] at hp
    rcases hp with ⟨⟨s, e⟩, hr, rfl⟩
    have hmem := List.mem_of_mem_filter hr
    have hb := hbd (s, e) hmem
    constructor
    · positivity
    · have : (s : ℤ) ≤ (e : ℤ) := by exact_mod_cast le_of_lt hb.2
      exact mul_le_mul_of_nonneg_right this (Int.natCast_nonneg seek)

/-- Unfolding of the sequential detector on a nonempty signal. -/
theorem detectSeq_eq (x : List ℚ) (sr minLen : ℕ) (tsq : ℚ) (seek : ℕ)
    (hx : ¬ x.length = 0) :
    detectSeq x sr minLen tsq seek =
      (segmentsOf
          (seqSilentArr
            (xPadOf x (hopOf sr seek) (hopOf sr seek)
              (nHopsOf x.length (hopOf sr seek) (hopOf sr seek)))
            (hopOf sr seek) (hopOf sr seek)
            (nHopsOf x.length (hopOf sr seek) (hopOf sr seek)) tsq)
          seek minLen).map
        (fun p => (clamp p.1 0 (audioMsOf x.length sr),
                   clamp p.2 0 (audioMsOf x.length sr))) := by
  rw [detectSeq, if_neg hx]

/-- **C3 (amended).** For every input and parameters the returned spans are
ordered with `end_ms[i] ≤ start_ms[i+1]`, and every span satisfies
`0 ≤ start_ms ≤ end_ms ≤ audio_duration_ms` and is the clamp of a candidate
run of pre-clamp length `(e - s) * seek_step_ms ≥ min_silence_len_ms`.
(The original claim's strict `start_ms < end_ms` and post-clamp
`duration_ms ≥ min_silence_len_ms` fail: clamping a run that the
hop-quantised timeline places at or past `audio_ms` collapses it, see
`detectSeq_c3_counterexample`.) -/
theorem detectSeq_invariants (x : List ℚ) (sr minLen : ℕ) (tsq : ℚ) (seek : ℕ) :
    List.Chain' (fun p q : ℤ × ℤ => p.2 ≤ q.1) (detectSeq x sr minLen tsq seek) ∧
    (∀ p ∈ detectSeq x sr minLen tsq seek,
      0 ≤ p.1 ∧ p.1 ≤ p.2 ∧ p.2 ≤ audioMsOf x.length sr) ∧
    (∀ p ∈ detectSeq x sr minLen tsq seek,
      ∃ s e : ℕ, minLen ≤ (e - s) * seek ∧
        p = (clamp ((s : ℤ) * (seek : ℤ)) 0 (audioMsOf x.length sr),
             clamp ((e : ℤ) * (seek : ℤ)) 0 (audioMsOf x.length sr))) := by
  by_cases hx : x.length = 0
  · rw [detectSeq, if_pos hx]
    refine ⟨List.chain'_nil, ?_, ?_⟩ <;> intro p hp <;> cases hp
  · rw [detectSeq_eq x sr minLen tsq seek hx]
    set A := audioMsOf x.length sr with hA
    have hA0 : 0 ≤ A := audioMsOf_nonneg x.length sr
    set segs := segmentsOf
      (seqSilentArr
        (xPadOf x (hopOf sr seek) (hopOf sr seek)
          (nHopsOf x.length (hopOf sr seek) (hopOf sr seek)))
        (hopOf sr seek) (hopOf sr seek)
        (nHopsOf x.length (hopOf sr seek) (hopOf sr seek)) tsq) seek minLen
      with hsegs
    rcases segmentsOf_pairwise
      (seqSilentArr
        (xPadOf x (hopOf sr seek) (hopOf sr seek)
          (nHopsOf x.length (hopOf sr seek) (hopOf sr seek)))
        (hopOf sr seek) (hopOf sr seek)
        (nHopsOf x.length (hopOf sr seek) (hopOf sr seek)) tsq) seek minLen
      with ⟨hpw, hbd⟩
    rw [← hsegs] at hpw hbd
    refine ⟨?_, ?_, ?_⟩
    · apply List.Pairwise.chain'
      rw [List.pairwise_map]
      exact hpw.imp fun {a b} h => clamp_mono h
    · intro p hp
      rcases List.mem_map.1 hp with ⟨q, hq, rfl⟩
      exact ⟨clamp_lb _ _ _, clamp_mono (hbd q hq).2, clamp_ub _ _ _ hA0⟩
    · intro p hp
      rcases List.mem_map.1 hp with ⟨q, hq, rfl⟩
      rw [hsegs] at hq
      rcases (segmentsOf_mem_iff _ seek minLen q).1 hq with ⟨s, e, hqe, _, hlen⟩
      exact ⟨s, e, hlen, by rw [hqe]⟩

/-- **C3 (counterexample).** At `sr = 2 Hz`, `seek_step_ms = 700` the hop is
`round(2*0.7) = 1` sample, so window `i` is booked at `[700*i, 700*(i+1))`
ms although it really starts at `500*i` ms; with the signal
`[1, 1, 1, 0]` (duration `2000` ms) the final window is a silent run of
booked length `700 ≥ min_silence_len_ms = 700`, reported as
`[2100, 2800]` and clamped to the empty interval `[2000, 2000]` — the
returned span violates both `start_ms < end_ms` and
`duration_ms ≥ min_silence_len_ms`. -/
theorem detectSeq_c3_counterexample :
    detectSeq [1, 1, 1, 0] 2 700 (1/2) 700 = [((2000 : ℤ), (2000 : ℤ))] ∧
    ¬ (∀ p ∈ detectSeq [1, 1, 1, 0] 2 700 (1/2) 700,
        p.1 < p.2 ∧ (700 : ℤ) ≤ p.2 - p.1) := by
  have hlen : ([1, 1, 1, 0] : List ℚ).length = 4 := rfl
  have hhop : hopOf 2 700 = 1 := by
    norm_num [hopOf, pythonRound, ratFloor_eq]
  have hn : nHopsOf 4 1 1 = 4 := by
    have h4 : ratCeil ((((4 : ℕ) : ℚ) - ((1 : ℕ) : ℚ)) / ((1 : ℕ) : ℚ)) = 3 := by
      rw [ratCeil_eq]
      norm_num
    rw [nHopsOf, h4]
    rfl
  have hpad : xPadOf [1, 1, 1, 0] 1 1 4 = [1, 1, 1, 0] := by
    norm_num [xPadOf]
  have w1 : silentWindow ((2 : ℚ)⁻¹) [(1 : ℚ)] = false := by
    rw [silentWindow]
    apply decide_eq_false
    norm_num [meanSq]
  have w0 : silentWindow ((2 : ℚ)⁻¹) [(0 : ℚ)] = true := by
    rw [silentWindow]
    apply decide_eq_true
    norm_num [meanSq]
  have hsil : seqSilentArr [1, 1, 1, 0] 1 1 4 (1/2) = [false, false, false, true] := by
    simp [seqSilentArr, windowOf, List.range_succ, w1, w0]
  have hseg : segmentsOf [false, false, false, true] 700 700 = [(2100, 2800)] := by
    decide
  have hams : audioMsOf 4 2 = 2000 := by
    norm_num [audioMsOf, pythonRound, ratFloor_eq]
  have hdet : detectSeq [1, 1, 1, 0] 2 700 (1/2) 700 = [((2000 : ℤ), (2000 : ℤ))] := by
    rw [detectSeq_eq _ _ _ _ _ (by rw [hlen]; norm_num), hlen, hhop, hn, hpad,
      hsil, hseg, hams]
    norm_num [clamp]
  refine ⟨hdet, ?_⟩
  intro h
  have := h (2000, 2000) (by rw [hdet]; exact List.mem_singleton.2 rfl)
  omega

/-! ## Planner trim invariant (claim C7) -/

theorem pythonTrunc_nonneg (q : ℚ) (h : 0 ≤ q) : 0 ≤ pythonTrunc q := by
  rw [pythonTrunc, if_pos h, ratFloor_eq]
  exact Int.floor_nonneg.2 h

theorem scanBest_cons_none (q : ℤ × ℤ) (rest : List (ℤ × ℤ)) (t : ℚ) :
    scanBest (q :: rest) t none =
      scanBest rest t (some (q, |silenceMidSec q - t|)) := rfl

theorem scanBest_cons_some (q : ℤ × ℤ) (rest : List (ℤ × ℤ)) (t : ℚ)
    (b : ℤ × ℤ) (db : ℚ) :
    scanBest (q :: rest) t (some (b, db)) =
      if |silenceMidSec q - t| < db then
        scanBest rest t (some (q, |silenceMidSec q - t|))
      else scanBest rest t (some (b, db)) := rfl

/-- The nearest-silence scan picks the first interval of minimal midpoint
distance: the accumulated list `b :: l` splits as `pre ++ best :: post`
where everything before `best` is strictly farther from the target and
everything after it no closer. -/
theorem scanBest_argmin (t : ℚ) :
    ∀ (l : List (ℤ × ℤ)) (b : ℤ × ℤ),
    ∃ pre post best,
      b :: l = pre ++ best :: post ∧
      scanBest l t (some (b, |silenceMidSec b - t|)) =
        some (best, |silenceMidSec best - t|) ∧
      (∀ q ∈ pre, |silenceMidSec best - t| < |silenceMidSec q - t|) ∧
      (∀ q ∈ post, |silenceMidSec best - t| ≤ |silenceMidSec q - t|) := by
  intro l
  induction l with
  | nil =>
    intro b
    refine ⟨[], [], b, rfl, rfl, ?_, ?_⟩ <;> intro q hq <;> cases hq
  | cons q rest ih =>
    intro b
    by_cases hlt : |silenceMidSec q - t| < |silenceMidSec b - t|
    · rcases ih q with ⟨pre, post, best, hsplit, heq, hpre, hpost⟩
      refine ⟨b :: pre, post, best, ?_, ?_, ?_, hpost⟩
      · rw [List.cons_append, ← hsplit]
      · rw [scanBest_cons_some, if_pos hlt]
        exact heq
      · intro r hr
        rcases List.mem_cons.1 hr with rfl | hr'
        · have hdq : |silenceMidSec best - t| ≤ |silenceMidSec q - t| := by
            cases pre with
            | nil =>
              have hq : q = best := by
                have h0 := hsplit
                simp only [List.nil_append] at h0
                injection h0
              rw [← hq]
            | cons p pre' =>
              have hq : q = p := by
                simp only [List.cons_append] at hsplit
                injection hsplit
              rw [hq]
              exact le_of_lt (hpre p (List.mem_cons_self _ _))
          exact lt_of_le_of_lt hdq hlt
        · exact hpre r hr'
    · rcases ih b with ⟨pre, post, best, hsplit, heq, hpre, hpost⟩
      cases pre with
      | nil =>
        simp only [List.nil_append] at hsplit
        have hb : b = best := by injection hsplit
        have hrest : rest = post := by injection hsplit
        subst hb
        refine ⟨[], q :: rest, b, rfl, ?_, ?_, ?_⟩
        · rw [scanBest_cons_some, if_neg hlt]
          exact heq
        · intro r hr
          cases hr
        · intro r hr
          rcases List.mem_cons.1 hr with rfl | hr'
          · exact le_of_not_lt hlt
          · exact hpost r (hrest ▸ hr')
      | cons p pre' =>
        simp only [List.cons_append] at hsplit
        have hb : b = p := by injection hsplit
        have hrest : rest = pre' ++ best :: post := by injection hsplit
        subst hb
        refine ⟨b :: q :: pre', post, best, ?_, ?_, ?_, hpost⟩
        · simp only [List.cons_append]
          rw [← hrest]
        · rw [scanBest_cons_some, if_neg hlt]
          exact heq
        · intro r hr
          rcases List.mem_cons.1 hr with rfl | hr'
          · exact hpre r (List.mem_cons_self _ _)
          rcases List.mem_cons.1 hr' with rfl | hr''
          · exact lt_of_lt_of_le (hpre b (List.mem_cons_self _ _)) (le_of_not_lt hlt)
          · exact hpre r (List.mem_cons_of_mem _ hr'')

/-- `scanBest` on a nonempty list, from the initial `best = None` state. -/
theorem scanBest_none_argmin (t : ℚ) (l : List (ℤ × ℤ)) (hne : l ≠ []) :
    ∃ pre post best,
      l = pre ++ best :: post ∧
      scanBest l t none = some (best, |silenceMidSec best - t|) ∧
      (∀ q ∈ pre, |silenceMidSec best - t| < |silenceMidSec q - t|) ∧
      (∀ q ∈ post, |silenceMidSec best - t| ≤ |silenceMidSec q - t|) := by
  cases l with
  | nil => exact absurd rfl hne
  | cons b rest =>
    rw [scanBest_cons_none]
    exact scanBest_argmin t rest b

/-- Rearrangement inequality for two points and two targets: the sorted
matching never exceeds the crossed matching. -/
theorem abs_exchange (t t' m m' : ℚ) (ht : t ≤ t') (hm : m' ≤ m) :
    |m' - t| + |m - t'| ≤ |m - t| + |m' - t'| := by
  rcases abs_cases (m' - t) with ⟨h1, h1'⟩ | ⟨h1, h1'⟩ <;>
    rcases abs_cases (m - t') with ⟨h2, h2'⟩ | ⟨h2, h2'⟩ <;>
    rcases abs_cases (m - t) with ⟨h3, h3'⟩ | ⟨h3, h3'⟩ <;>
    rcases abs_cases (m' - t') with ⟨h4, h4'⟩ | ⟨h4, h4'⟩ <;>
    linarith

theorem sorted_split_rel (segs pre post : List (ℤ × ℤ)) (best : ℤ × ℤ)
    (hsort : List.Pairwise (fun p q : ℤ × ℤ => p.2 ≤ q.1) segs)
    (hsplit : segs = pre ++ best :: post) :
    (∀ q ∈ pre, q.2 ≤ best.1) ∧ (∀ q ∈ post, best.2 ≤ q.1) := by
  subst hsplit
  rcases List.pairwise_append.1 hsort with ⟨hpre, hrest, hcross⟩
  exact ⟨fun q hq => hcross q hq best (List.mem_cons_self _ _),
    fun q hq => (List.pairwise_cons.1 hrest).1 q hq⟩

theorem mid_lt_mid {p q : ℤ × ℤ} (hp : p.1 < p.2) (hq : q.1 < q.2)
    (h : p.2 ≤ q.1) : silenceMidSec p < silenceMidSec q := by
  rw [silenceMidSec, silenceMidSec]
  have hc : (p.1 : ℚ) + p.2 < (q.1 : ℚ) + q.2 := by
    exact_mod_cast (by omega : p.1 + p.2 < q.1 + q.2)
  linarith

/-- Monotonicity of the nearest-silence selection: on a sorted silence list
with positive-length intervals, a later target never selects an earlier
interval (first-minimum tie-breaking included). -/
theorem scanBest_mono (segs : List (ℤ × ℤ))
    (hsort : List.Pairwise (fun p q : ℤ × ℤ => p.2 ≤ q.1) segs)
    (hvalid : ∀ p ∈ segs, p.1 < p.2) (t t' : ℚ) (htt : t ≤ t')
    (b b' : ℤ × ℤ) (db db' : ℚ)
    (hb : scanBest segs t none = some (b, db))
    (hb' : scanBest segs t' none = some (b', db')) :
    b.1 ≤ b'.1 ∧ b.2 ≤ b'.2 := by
  have hne : segs ≠ [] := by
    intro h
    subst h
    cases hb
  rcases scanBest_none_argmin t segs hne with ⟨pre₁, post₁, best₁, hsplit₁, heq₁, hpre₁, hpost₁⟩
  rcases scanBest_none_argmin t' segs hne with ⟨pre₂, post₂, best₂, hsplit₂, heq₂, hpre₂, hpost₂⟩
  have hb1 : best₁ = b := by
    rw [heq₁] at hb
    injection hb with hb
    injection hb
  have hb2 : best₂ = b' := by
    rw [heq₂] at hb'
    injection hb' with hb'
    injection hb'
  rw [hb1] at heq₁ hpre₁ hpost₁ hsplit₁
  rw [hb2] at heq₂ hpre₂ hpost₂ hsplit₂
  have hmemb : b ∈ segs := by
    rw [hsplit₁]
    exact List.mem_append_right _ (List.mem_cons_self _ _)
  have hmemb' : b' ∈ segs := by
    rw [hsplit₂]
    exact List.mem_append_right _ (List.mem_cons_self _ _)
  rcases sorted_split_rel segs pre₁ post₁ b hsort hsplit₁ with ⟨hrel₁, hrel₁'⟩
  rcases sorted_split_rel segs pre₂ post₂ b' hsort hsplit₂ with ⟨hrel₂, hrel₂'⟩
  have hmid : silenceMidSec b ≤ silenceMidSec b' := by
    by_contra hcon
    push_neg at hcon
    have hmem'' : b' ∈ pre₁ ++ b :: post₁ := hsplit₁ ▸ hmemb'
    have hpre : b' ∈ pre₁ := by
      rcases List.mem_append.1 hmem'' with h | h
      · exact h
      · rcases List.mem_cons.1 h with rfl | h'
        · exact absurd hcon (lt_irrefl _)
        · exact absurd hcon (not_lt.2 (le_of_lt
            (mid_lt_mid (hvalid b hmemb) (hvalid b' hmemb') (hrel₁' b' h'))))
    have h1 : |silenceMidSec b - t| < |silenceMidSec b' - t| := hpre₁ b' hpre
    have h2 : |silenceMidSec b' - t'| ≤ |silenceMidSec b - t'| := by
      have hmemb2 : b ∈ pre₂ ++ b' :: post₂ := hsplit₂ ▸ hmemb
      rcases List.mem_append.1 hmemb2 with h | h
      · exact le_of_lt (hpre₂ b h)
      · rcases List.mem_cons.1 h with rfl | h'
        · exact le_refl _
        · exact hpost₂ b h'
    have hex := abs_exchange t t' (silenceMidSec b) (silenceMidSec b') htt
      (le_of_lt hcon)
    linarith
  have hmem'' : b' ∈ pre₁ ++ b :: post₁ := hsplit₁ ▸ hmemb'
  rcases List.mem_append.1 hmem'' with h | h
  · exact absurd hmid (not_le.2
      (mid_lt_mid (hvalid b' hmemb') (hvalid b hmemb) (hrel₁ b' h)))
  · rcases List.mem_cons.1 h with rfl | h'
    · exact ⟨le_refl _, le_refl _⟩
    · have hcross : b.2 ≤ b'.1 := hrel₁' b' h'
      have h1 := hvalid b hmemb
      have h2 := hvalid b' hmemb'
      omega

theorem targetMinutesOf_pairwise (M : ℚ) (n : ℤ) (hpos : 0 < M / (n : ℚ)) :
    List.Pairwise (· < ·) (targetMinutesOf M n) := by
  rw [targetMinutesOf, List.range'_eq_map_range, List.map_map, List.pairwise_map]
  apply (List.pairwise_lt_range _).imp
  intro a b hab
  simp only [Function.comp]
  have hc : ((1 + a : ℕ) : ℚ) < ((1 + b : ℕ) : ℚ) := by
    exact_mod_cast (by omega : 1 + a < 1 + b)
  exact mul_lt_mul_of_pos_left hc hpos

theorem selectedSilencesOf_chain (M : ℚ) (segs : List (ℤ × ℤ))
    (hsort : List.Pairwise (fun p q : ℤ × ℤ => p.2 ≤ q.1) segs)
    (hvalid : ∀ p ∈ segs, p.1 < p.2) (hMpos : 0 < M) :
    List.Chain' (fun p q : ℤ × ℤ => p.1 ≤ q.1 ∧ p.2 ≤ q.2)
      (selectedSilencesOf M segs) := by
  apply List.Pairwise.chain'
  rw [selectedSilencesOf, List.pairwise_filterMap]
  have hn2 : (2 : ℤ) ≤ numPiecesOf M := le_max_left _ _
  have hnpos : (0 : ℚ) < ((numPiecesOf M : ℤ) : ℚ) := by
    exact_mod_cast (by omega : (0 : ℤ) < numPiecesOf M)
  apply (targetMinutesOf_pairwise M (numPiecesOf M) (div_pos hMpos hnpos)).imp
  intro tm tm' htm x hx y hy
  rcases Option.map_eq_some'.1 hx with ⟨r, hr, hr1⟩
  rcases Option.map_eq_some'.1 hy with ⟨r', hr', hr1'⟩
  have hmono := scanBest_mono segs hsort hvalid (tm * 60) (tm' * 60)
    (by nlinarith) r.1 r'.1 r.2 r'.2 (by rw [← hr]) (by rw [← hr'])
  rw [← hr1, ← hr1']
  exact hmono

theorem middlePieces_trim (l : List (ℤ × ℤ)) :
    ∀ (prev : ℤ × ℤ) (idx : ℕ),
    (∀ p ∈ prev :: l, p.1 ≤ p.2) →
    List.Chain' (fun p q : ℤ × ℤ => p.2 ≤ q.2) (prev :: l) →
    ∀ piece ∈ middlePieces prev l idx,
      0 ≤ piece.trim_leading_ms ∧
      piece.start_ms + piece.trim_leading_ms ≤ piece.end_ms := by
  induction l with
  | nil =>
    intro prev idx _ _ piece hp
    cases hp
  | cons cur rest ih =>
    intro prev idx hval hchain piece hp
    rcases List.mem_cons.1 hp with rfl | hp'
    · refine ⟨le_max_left _ _, ?_⟩
      have h1 : prev.1 ≤ prev.2 := hval prev (List.mem_cons_self _ _)
      have h2 : prev.2 ≤ cur.2 := (List.chain'_cons.1 hchain).1
      show prev.1 + max 0 (prev.2 - prev.1) ≤ cur.2
      simp only [max_def]
      split_ifs <;> omega
    · exact ih cur (idx + 1) (fun p hp => hval p (List.mem_cons_of_mem _ hp))
        (List.chain'_cons.1 hchain).2 piece hp'

theorem getLastD_mem_cons {α : Type _} (a : α) (l : List α) (d : α) :
    (a :: l).getLastD d ∈ a :: l := by
  induction l generalizing a with
  | nil => exact List.mem_singleton.2 rfl
  | cons b l ih =>
    rw [List.getLastD_cons]
    exact List.mem_cons_of_mem _ (ih b)

theorem makePiecePlan_trim (sil : List (ℤ × ℤ)) (total : ℤ) (htot : 0 ≤ total)
    (hval : ∀ p ∈ sil, 0 ≤ p.1 ∧ p.1 ≤ p.2 ∧ p.2 ≤ total)
    (hchain : List.Chain' (fun p q : ℤ × ℤ => p.2 ≤ q.2) sil) :
    ∀ piece ∈ makePiecePlan sil total,
      0 ≤ piece.trim_leading_ms ∧
      piece.start_ms + piece.trim_leading_ms ≤ piece.end_ms := by
  cases sil with
  | nil =>
    intro piece hp
    rcases List.mem_singleton.1 hp with rfl
    exact ⟨le_refl 0, by simpa using htot⟩
  | cons first rest =>
    intro piece hp
    simp only [makePiecePlan] at hp
    rcases List.mem_cons.1 hp with rfl | hp'
    · rcases hval first (List.mem_cons_self _ _) with ⟨h1, h2, -⟩
      exact ⟨le_refl 0, by simpa using le_trans h1 h2⟩
    rcases List.mem_append.1 hp' with hmid | hlast
    · exact middlePieces_trim rest first 2
        (fun p hpm => (hval p hpm).2.1) hchain piece hmid
    · rcases List.mem_singleton.1 hlast with rfl
      have hmem : (first :: rest).getLastD (0, 0) ∈ first :: rest :=
        getLastD_mem_cons first rest (0, 0)
      rcases hval _ hmem with ⟨h1, h2, h3⟩
      refine ⟨le_max_left _ _, ?_⟩
      show ((first :: rest).getLastD (0, 0)).1 +
        max 0 (((first :: rest).getLastD (0, 0)).2 -
          ((first :: rest).getLastD (0, 0)).1) ≤ total
      simp only [max_def]
      split_ifs <;> omega

/-- **C7 (amended).** Every piece of every plan built from a silence list
that is non-overlapping, sorted ascending, with `0 ≤ start_ms < end_ms`
**and `end_ms ≤ total_ms`** satisfies `trim_leading_ms ≥ 0` and
`start_ms + trim_leading_ms ≤ end_ms`, including when the nearest-midpoint
selection picks the same interval for several adjacent target points.
(Without the extra `end_ms ≤ total_ms` bound — which the real pipeline does
not guarantee, because `total_ms` comes from a duration rounded to 2
decimal minutes — the final piece can violate the invariant, see
`planPieces_c7_counterexample`; `0 ≤ M` reflects that a duration is
nonnegative.) -/
theorem planPieces_trim_invariant (M : ℚ) (segs : List (ℤ × ℤ))
    (hM : 0 ≤ M)
    (hsort : List.Pairwise (fun p q : ℤ × ℤ => p.2 ≤ q.1) segs)
    (hvalid : ∀ p ∈ segs, 0 ≤ p.1 ∧ p.1 < p.2 ∧ p.2 ≤ totalMsOf M) :
    ∀ piece ∈ planPieces M segs,
      0 ≤ piece.trim_leading_ms ∧
      piece.start_ms + piece.trim_leading_ms ≤ piece.end_ms := by
  have htot : 0 ≤ totalMsOf M := pythonTrunc_nonneg _ (by positivity)
  by_cases hM20 : M ≤ 20
  · rw [planPieces, if_pos hM20]
    intro piece hp
    rcases List.mem_singleton.1 hp with rfl
    exact ⟨le_refl 0, by simpa using htot⟩
  · rw [planPieces, if_neg hM20]
    apply makePiecePlan_trim _ _ htot
    · intro p hp
      rcases hvalid p (selectedSilencesOf_subset M segs p hp) with ⟨h1, h2, h3⟩
      exact ⟨h1, le_of_lt h2, h3⟩
    · exact List.Chain'.imp (fun a b h => h.2)
        (selectedSilencesOf_chain M segs hsort
          (fun p hp => (hvalid p hp).2.1)
          (by linarith [not_le.1 hM20]))

/-- Witness for `planPieces_trim_invariant`: a 21-minute file, one silence
interval ending before `total_ms`. -/
theorem planPieces_trim_invariant_witness :
    (0 : ℚ) ≤ 21 ∧
    ∀ piece ∈ planPieces 21 [((600000 : ℤ), (630000 : ℤ))],
      0 ≤ piece.trim_leading_ms ∧
      piece.start_ms + piece.trim_leading_ms ≤ piece.end_ms :=
  ⟨by norm_num,
   planPieces_trim_invariant 21 [((600000 : ℤ), (630000 : ℤ))] (by norm_num)
    (List.pairwise_singleton _ _)
    (by
      intro p hp
      rcases List.mem_singleton.1 hp with rfl
      refine ⟨by norm_num, by norm_num, ?_⟩
      have : totalMsOf 21 = 1260000 := by
        norm_num [totalMsOf, pythonTrunc, ratFloor_eq]
      rw [this]
      norm_num)⟩

/-- **C7 (counterexample).** With `total_duration_minutes = 21` the planner
uses `total_ms = 1260000`; a single detector-shaped silence interval
`[1259000, 1261000]` (sorted, non-overlapping, `start < end`) is selected
for all three target points, and the final piece
`[1259000, 1260000]` carries `trim_leading_ms = 2000`, so
`start_ms + trim_leading_ms = 1261000 > 1260000 = end_ms`. -/
theorem planPieces_c7_counterexample :
    (∀ p ∈ [((1259000 : ℤ), (1261000 : ℤ))], 0 ≤ p.1 ∧ p.1 < p.2) ∧
    List.Pairwise (fun p q : ℤ × ℤ => p.2 ≤ q.1) [((1259000 : ℤ), (1261000 : ℤ))] ∧
    ∃ piece ∈ planPieces 21 [((1259000 : ℤ), (1261000 : ℤ))],
      ¬ (piece.start_ms + piece.trim_leading_ms ≤ piece.end_ms) := by
  refine ⟨by decide, List.pairwise_singleton _ _, ?_⟩
  have hnum : numPiecesOf 21 = 4 := by
    norm_num [numPiecesOf, pythonRound, ratFloor_eq]
  have htot : totalMsOf 21 = 1260000 := by
    norm_num [totalMsOf, pythonTrunc, ratFloor_eq]
  have hsel : selectedSilencesOf 21 [((1259000 : ℤ), (1261000 : ℤ))] =
      [(1259000, 1261000), (1259000, 1261000), (1259000, 1261000)] := by
    rw [selectedSilencesOf, hnum]
    rfl
  have hplan : planPieces 21 [((1259000 : ℤ), (1261000 : ℤ))] =
      makePiecePlan [(1259000, 1261000), (1259000, 1261000), (1259000, 1261000)]
        1260000 := by
    rw [planPieces, if_neg (by norm_num), hsel, htot]
  rw [hplan]
  refine ⟨(⟨4, 1259000, 1260000, 1000, 2000⟩ : Piece), ?_, by decide⟩
  decide

/-! ## Parallel/sequential equivalence (claims C1, C2) -/

theorem writeChunk_length (vals : List Bool) :
    ∀ (arr : List Bool) (s : ℕ), (writeChunk arr s vals).length = arr.length := by
  induction vals with
  | nil => intro arr s; rfl
  | cons v vs ih =>
    intro arr s
    rw [writeChunk, ih]
    split_ifs with h
    · exact List.length_set arr s v
    · rfl

theorem writeChunk_getD_of_not_covered (vals : List Bool) :
    ∀ (arr : List Bool) (s w : ℕ), (w < s ∨ s + vals.length ≤ w) →
    (writeChunk arr s vals).getD w false = arr.getD w false := by
  induction vals with
  | nil => intro arr s w _; rfl
  | cons v vs ih =>
    intro arr s w hw
    rw [List.length_cons] at hw
    rw [writeChunk, ih _ (s + 1) w (by omega)]
    split_ifs with h
    · rw [List.getD_eq_getD_get?, List.getD_eq_getD_get?, List.get?_eq_getElem?,
        List.get?_eq_getElem?, List.getElem?_set_ne (by omega : s ≠ w)]
    · rfl

theorem writeChunk_getD_of_covered (vals : List Bool) :
    ∀ (arr : List Bool) (s w : ℕ),
    s ≤ w → w < s + vals.length → w < arr.length →
    (writeChunk arr s vals).getD w false = vals.getD (w - s) false := by
  induction vals with
  | nil =>
    intro arr s w h1 h2 _
    rw [List.length_nil] at h2
    omega
  | cons v vs ih =>
    intro arr s w h1 h2 h3
    rw [List.length_cons] at h2
    rw [writeChunk]
    rcases eq_or_lt_of_le h1 with heq | hlt
    · rw [writeChunk_getD_of_not_covered vs _ (s + 1) w (Or.inl (by omega))]
      have hs3 : s < arr.length := by omega
      rw [if_pos hs3]
      have hws : w - s = 0 := by omega
      rw [hws, List.getD_cons_zero, List.getD_eq_getD_get?, List.get?_eq_getElem?,
        ← heq, List.getElem?_set_eq hs3]
      rfl
    · have harr : (if s < arr.length then arr.set s v else arr).length = arr.length := by
        split_ifs with h
        · exact List.length_set arr s v
        · rfl
      rw [ih _ (s + 1) w (by omega) (by omega) (by omega)]
      have hws : w - s = (w - (s + 1)) + 1 := by omega
      rw [hws, List.getD_cons_succ]

/-- After folding all chunk write-backs, a position holds the per-window
value `f` whenever some chunk result covers it, and the original entry
otherwise (all results must agree with `f` on their own range). -/
theorem foldWrite_getD (results : List ChunkResult) :
    ∀ (arr : List Bool) (f : ℕ → Bool),
    (∀ r ∈ results, ∀ j, j < r.silent.length →
      r.silent.getD j false = f (r.start_hop_idx + j)) →
    ∀ w, w < arr.length →
    (results.foldl (fun a r => writeChunk a r.start_hop_idx r.silent) arr).getD w false =
      if ∃ r ∈ results, r.start_hop_idx ≤ w ∧ w < r.start_hop_idx + r.silent.length
      then f w else arr.getD w false := by
  induction results with
  | nil =>
    intro arr f _ w _
    rw [if_neg (by simp)]
    rfl
  | cons r rs ih =>
    intro arr f hagree w hw
    rw [List.foldl_cons]
    have harr' : (writeChunk arr r.start_hop_idx r.silent).length = arr.length :=
      writeChunk_length r.silent arr r.start_hop_idx
    rw [ih (writeChunk arr r.start_hop_idx r.silent) f
      (fun r' hr' => hagree r' (List.mem_cons_of_mem _ hr')) w (by omega)]
    by_cases hrs : ∃ r' ∈ rs, r'.start_hop_idx ≤ w ∧ w < r'.start_hop_idx + r'.silent.length
    · rw [if_pos hrs, if_pos ?_]
      rcases hrs with ⟨r', hr', hcov⟩
      exact ⟨r', List.mem_cons_of_mem _ hr', hcov⟩
    · rw [if_neg hrs]
      by_cases hr : r.start_hop_idx ≤ w ∧ w < r.start_hop_idx + r.silent.length
      · rw [writeChunk_getD_of_covered r.silent arr r.start_hop_idx w hr.1 hr.2 hw]
        rw [if_pos ⟨r, List.mem_cons_self _ _, hr⟩]
        have hag := hagree r (List.mem_cons_self _ _) (w - r.start_hop_idx) (by omega)
        rw [hag]
        congr 1
        omega
      · rw [writeChunk_getD_of_not_covered r.silent arr r.start_hop_idx w (by omega)]
        rw [if_neg ?_]
        rintro ⟨r', hr', hcov⟩
        rcases List.mem_cons.1 hr' with rfl | hr''
        · exact hr hcov
        · exact hrs ⟨r', hr'', hcov⟩


theorem hopOf_pos (sr seekStep : ℕ) : 1 ≤ hopOf sr seekStep := by
  rw [hopOf]
  have h : (1 : ℤ) ≤ max 1 (pythonRound ((sr * seekStep : ℚ) / 1000)) :=
    le_max_left _ _
  omega

/-- Bounds for the hop count: with `win = hop` the padded window grid has
`(n_hops - 1) * hop < len ≤ n_hops * hop`. -/
theorem nHopsOf_bounds (len hop : ℕ) (hlen : 1 ≤ len) (hhop : 1 ≤ hop) :
    1 ≤ nHopsOf len hop hop ∧ (nHopsOf len hop hop - 1) * hop < len ∧
    len ≤ nHopsOf len hop hop * hop := by
  have hhq : (0 : ℚ) < (hop : ℚ) := by exact_mod_cast hhop
  set q : ℚ := ((len : ℚ) - (hop : ℚ)) / (hop : ℚ) with hq
  set c : ℤ := ⌈q⌉ with hc
  have hup : (len : ℚ) ≤ ((c : ℚ) + 1) * (hop : ℚ) := by
    have h1 : q ≤ (c : ℚ) := by rw [hc]; exact Int.le_ceil q
    rw [hq, div_le_iff hhq] at h1
    linarith
  have hlow : (c : ℚ) * (hop : ℚ) < (len : ℚ) := by
    have h2 : (c : ℚ) < q + 1 := by rw [hc]; exact Int.ceil_lt_add_one q
    rw [hq] at h2
    have h3 : ((c : ℚ) - 1) * (hop : ℚ) < (len : ℚ) - (hop : ℚ) :=
      (lt_div_iff hhq).1 (by linarith)
    rw [sub_mul, one_mul] at h3
    linarith
  have hc0 : 0 ≤ c := by
    by_contra hneg
    push_neg at hneg
    have hcz : (c : ℚ) + 1 ≤ 0 := by
      have : ((c + 1 : ℤ) : ℚ) ≤ ((0 : ℤ) : ℚ) := by exact_mod_cast (by omega : c + 1 ≤ 0)
      push_cast at this
      linarith
    have hl : (1 : ℚ) ≤ (len : ℚ) := by exact_mod_cast hlen
    nlinarith [hup, hhq.le]
  have hn : nHopsOf len hop hop = (c + 1).toNat := by
    rw [nHopsOf, ratCeil_eq, hc, hq]
  have hn' : nHopsOf len hop hop = c.toNat + 1 := by rw [hn]; omega
  have hcast : ((c.toNat : ℕ) : ℚ) = (c : ℚ) := by
    exact_mod_cast Int.toNat_of_nonneg hc0
  refine ⟨by rw [hn']; omega, ?_, ?_⟩
  · rw [hn']
    have h4 : ((c.toNat : ℕ) : ℚ) * (hop : ℚ) < (len : ℚ) := by rw [hcast]; exact hlow
    have h5 : (c.toNat * hop : ℕ) < len := by exact_mod_cast h4
    simpa using h5
  · rw [hn']
    have h4 : (len : ℚ) ≤ ((c.toNat : ℕ) : ℚ) * (hop : ℚ) + (hop : ℚ) := by
      rw [hcast]
      linarith
    have h5 : len ≤ c.toNat * hop + hop := by exact_mod_cast h4
    calc len ≤ c.toNat * hop + hop := h5
    _ = (c.toNat + 1) * hop := by ring

theorem xPadOf_length (x : List ℚ) (hop n : ℕ) (hn : 1 ≤ n)
    (hle : x.length ≤ n * hop) :
    (xPadOf x hop hop n).length = n * hop := by
  rw [xPadOf, List.length_append, List.length_replicate]
  obtain ⟨m, rfl⟩ : ∃ m, n = m + 1 := ⟨n - 1, by omega⟩
  simp only [Nat.add_sub_cancel]
  have h2 : m * hop + hop = (m + 1) * hop := by ring
  omega

theorem nat_min_mul_right (a b c : ℕ) : min (a * c) (b * c) = min a b * c := by
  rcases le_total a b with h | h
  · rw [min_eq_left (Nat.mul_le_mul_right c h), min_eq_left h]
  · rw [min_eq_right (Nat.mul_le_mul_right c h), min_eq_right h]

theorem mkChunks_mem_iff (numProc n hop win : ℕ) (tsq : ℚ) (xPad : List ℚ)
    (c : AudioChunk) :
    c ∈ mkChunks numProc n hop win tsq xPad ↔
      ∃ i, i < numProc ∧ i * hppOf numProc n < n ∧
        c = { x_chunk := (xPad.drop (i * hppOf numProc n * hop)).take
                (min ((if i = numProc - 1 then n
                       else min ((i + 1) * hppOf numProc n) n) * hop + win)
                  xPad.length - i * hppOf numProc n * hop),
              start_hop_idx := i * hppOf numProc n, hop := hop, win := win,
              silence_thresh_sq := tsq, chunk_idx := i } := by
  rw [mkChunks, List.mem_filterMap]
  constructor
  · rintro ⟨i, hi, hsome⟩
    rw [List.mem_range] at hi
    dsimp only at hsome
    by_cases hlt : i * hppOf numProc n < n
    · rw [if_pos hlt] at hsome
      exact ⟨i, hi, hlt, (Option.some_inj.1 hsome).symm⟩
    · rw [if_neg hlt] at hsome
      exact Option.noConfusion hsome
  · rintro ⟨i, hi, hlt, rfl⟩
    refine ⟨i, List.mem_range.2 hi, ?_⟩
    dsimp only
    rw [if_pos hlt]

theorem range_map_getD {α : Type _} (n : ℕ) (g : ℕ → α) (d : α) (w : ℕ)
    (hw : w < n) : ((List.range n).map g).getD w d = g w := by
  rw [List.getD_eq_getElem _ _ (by simpa using hw)]
  simp

/-- A well-formed coordinator chunk is classified by the worker exactly as
the sequential detector classifies the corresponding global windows
`start_hop, …, min(end_hop + 1, n_hops) - 1`. -/
theorem processAudioChunk_eq (xPad : List ℚ) (n hop : ℕ) (tsq : ℚ)
    (sh eh idx : ℕ) (hhop : 1 ≤ hop) (hlen : xPad.length = n * hop)
    (hsh : sh < n) (hse : sh ≤ eh) :
    processAudioChunk
      { x_chunk := (xPad.drop (sh * hop)).take
          (min (eh * hop + hop) xPad.length - sh * hop),
        start_hop_idx := sh, hop := hop, win := hop, silence_thresh_sq := tsq,
        chunk_idx := idx } =
      { silent := (List.range (min (eh + 1) n - sh)).map
          (fun j => silentWindow tsq (windowOf xPad hop hop (sh + j))),
        start_hop_idx := sh, chunk_idx := idx } := by
  set k := min (eh + 1) n - sh with hk
  have hk1 : 1 ≤ k := by
    have : sh < min (eh + 1) n := lt_min (by omega) hsh
    omega
  have hkn : k ≤ n - sh := by omega
  have htake : min (eh * hop + hop) xPad.length - sh * hop = k * hop := by
    have h1 : eh * hop + hop = (eh + 1) * hop := by ring
    rw [h1, hlen, nat_min_mul_right, hk, Nat.sub_mul]
  have hchunklen : ((xPad.drop (sh * hop)).take
      (min (eh * hop + hop) xPad.length - sh * hop)).length = k * hop := by
    rw [htake, List.length_take, List.length_drop, hlen, ← Nat.sub_mul]
    exact min_eq_left (Nat.mul_le_mul_right hop (by omega))
  have hwin : ∀ j, j < k →
      windowOf ((xPad.drop (sh * hop)).take
        (min (eh * hop + hop) xPad.length - sh * hop)) hop hop j =
      windowOf xPad hop hop (sh + j) := by
    intro j hj
    have hle : hop ≤ k * hop - j * hop := by
      rw [← Nat.sub_mul]
      calc hop = 1 * hop := (one_mul hop).symm
      _ ≤ (k - j) * hop := Nat.mul_le_mul_right hop (by omega)
    simp only [windowOf, htake]
    rw [List.drop_take, List.take_take, List.drop_drop, min_eq_left hle]
    congr 2
    ring
  have hwinle : hop ≤ ((xPad.drop (sh * hop)).take
      (min (eh * hop + hop) xPad.length - sh * hop)).length := by
    rw [hchunklen]
    calc hop = 1 * hop := (one_mul hop).symm
    _ ≤ k * hop := Nat.mul_le_mul_right hop hk1
  have hceil : ratCeil (((((xPad.drop (sh * hop)).take
      (min (eh * hop + hop) xPad.length - sh * hop)).length : ℚ) - (hop : ℚ)) /
      (hop : ℚ)) = (k : ℤ) - 1 := by
    rw [hchunklen, ratCeil_eq]
    have hh : (hop : ℚ) ≠ 0 := Nat.cast_ne_zero.2 (by omega)
    have hq2 : (((k * hop : ℕ) : ℚ) - (hop : ℚ)) / (hop : ℚ) =
        (((k : ℤ) - 1 : ℤ) : ℚ) := by
      push_cast
      field_simp
      ring
    rw [hq2, Int.ceil_intCast]
  have hpad : (k - 1) * hop + hop - k * hop = 0 := by
    have h5 : (k - 1) * hop + hop = ((k - 1) + 1) * hop := by ring
    have h6 : (k - 1) + 1 = k := by omega
    rw [h5, h6]
    omega
  simp only [processAudioChunk]
  rw [if_pos hwinle, hceil]
  have hk2 : ((k : ℤ) - 1 + 1) = (k : ℤ) := by ring
  rw [hk2, if_neg (by omega : ¬ ((k : ℤ) ≤ 0)), Int.toNat_natCast, hchunklen,
    hpad, List.replicate_zero, List.append_nil]
  refine congrArg (fun l => ChunkResult.mk l sh idx) ?_
  refine List.map_congr_left ?_
  intro j hj
  exact congrArg (silentWindow tsq) (hwin j (List.mem_range.1 hj))

theorem foldWrite_length (results : List ChunkResult) :
    ∀ (arr : List Bool),
    (results.foldl (fun a r => writeChunk a r.start_hop_idx r.silent) arr).length
      = arr.length := by
  induction results with
  | nil => intro arr; rfl
  | cons r rs ih =>
    intro arr
    rw [List.foldl_cons, ih, writeChunk_length]

/-- Every entry of the coordinator's result list is the worker classification
of the global windows of some chunk `i`. -/
theorem results_pointwise (fails : ℕ → Bool) (numProc n hop : ℕ) (tsq : ℚ)
    (xPad : List ℚ) (hhop : 1 ≤ hop) (hlen : xPad.length = n * hop)
    (hf : ∀ i, fails i = false) :
    ∀ r ∈ (mkChunks numProc n hop hop tsq xPad).map
        (fun c => processAudioChunkF (fails c.chunk_idx) c),
      ∃ i, i < numProc ∧ i * hppOf numProc n < n ∧
      r = { silent := (List.range (min ((if i = numProc - 1 then n
                else min ((i + 1) * hppOf numProc n) n) + 1) n
                  - i * hppOf numProc n)).map
              (fun j => silentWindow tsq (windowOf xPad hop hop
                (i * hppOf numProc n + j))),
            start_hop_idx := i * hppOf numProc n, chunk_idx := i } := by
  intro r hr
  rw [List.mem_map] at hr
  obtain ⟨c, hc, rfl⟩ := hr
  rw [mkChunks_mem_iff] at hc
  obtain ⟨i, hi, hlt, rfl⟩ := hc
  refine ⟨i, hi, hlt, ?_⟩
  have hse : i * hppOf numProc n ≤ (if i = numProc - 1 then n
      else min ((i + 1) * hppOf numProc n) n) := by
    split_ifs with h
    · omega
    · exact le_min (Nat.mul_le_mul_right _ (Nat.le_succ i)) (le_of_lt hlt)
  simp only [processAudioChunkF, hf]
  rw [if_neg Bool.false_ne_true]
  exact processAudioChunk_eq xPad n hop tsq (i * hppOf numProc n)
    (if i = numProc - 1 then n else min ((i + 1) * hppOf numProc n) n) i
    hhop hlen hlt hse

/-- Conversely, the worker classification of chunk `i` is an entry of the
coordinator's result list. -/
theorem results_mem (fails : ℕ → Bool) (numProc n hop : ℕ) (tsq : ℚ)
    (xPad : List ℚ) (hhop : 1 ≤ hop) (hlen : xPad.length = n * hop)
    (hf : ∀ i, fails i = false) (i : ℕ) (hi : i < numProc)
    (hlt : i * hppOf numProc n < n) :
    ({ silent := (List.range (min ((if i = numProc - 1 then n
          else min ((i + 1) * hppOf numProc n) n) + 1) n
            - i * hppOf numProc n)).map
          (fun j => silentWindow tsq (windowOf xPad hop hop
            (i * hppOf numProc n + j))),
       start_hop_idx := i * hppOf numProc n, chunk_idx := i } : ChunkResult) ∈
      (mkChunks numProc n hop hop tsq xPad).map
        (fun c => processAudioChunkF (fails c.chunk_idx) c) := by
  rw [List.mem_map]
  refine ⟨AudioChunk.mk ((xPad.drop (i * hppOf numProc n * hop)).take
      (min ((if i = numProc - 1 then n
          else min ((i + 1) * hppOf numProc n) n) * hop + hop)
        xPad.length - i * hppOf numProc n * hop))
      (i * hppOf numProc n) hop hop tsq i, ?_, ?_⟩
  · exact (mkChunks_mem_iff numProc n hop hop tsq xPad _).2 ⟨i, hi, hlt, rfl⟩
  · have hse : i * hppOf numProc n ≤ (if i = numProc - 1 then n
        else min ((i + 1) * hppOf numProc n) n) := by
      split_ifs with h
      · omega
      · exact le_min (Nat.mul_le_mul_right _ (Nat.le_succ i)) (le_of_lt hlt)
    simp only [processAudioChunkF, hf]
    rw [if_neg Bool.false_ne_true]
    exact processAudioChunk_eq xPad n hop tsq (i * hppOf numProc n)
      (if i = numProc - 1 then n else min ((i + 1) * hppOf numProc n) n) i
      hhop hlen hlt hse

/-- Every window index below `n_hops` is covered by some chunk: chunk
`min(w / hpp, num_processes - 1)` contains window `w`. -/
theorem chunks_cover (numProc n : ℕ) (hnp : 1 ≤ numProc) (w : ℕ) (hw : w < n) :
    ∃ i, i < numProc ∧ i * hppOf numProc n < n ∧ i * hppOf numProc n ≤ w ∧
      w < i * hppOf numProc n + (min ((if i = numProc - 1 then n
        else min ((i + 1) * hppOf numProc n) n) + 1) n
          - i * hppOf numProc n) := by
  set hpp := hppOf numProc n with hhpp
  have hpp10 : 10 ≤ hpp := by rw [hhpp, hppOf]; exact le_max_right _ _
  have hd1 : (w / hpp) * hpp ≤ w := Nat.div_mul_le_self w hpp
  have hd2 : w < (w / hpp) * hpp + hpp := by
    have h0 := Nat.div_add_mod w hpp
    have h1 : w % hpp < hpp := Nat.mod_lt _ (by omega)
    have h2 : hpp * (w / hpp) = (w / hpp) * hpp := Nat.mul_comm _ _
    omega
  by_cases hcase : numProc - 1 ≤ w / hpp
  · have hle : (numProc - 1) * hpp ≤ w := by
      calc (numProc - 1) * hpp ≤ (w / hpp) * hpp := Nat.mul_le_mul_right hpp hcase
      _ ≤ w := hd1
    refine ⟨numProc - 1, by omega, by omega, hle, ?_⟩
    rw [if_pos rfl]
    omega
  · have hne : ¬ (w / hpp = numProc - 1) := by omega
    refine ⟨w / hpp, by omega, by omega, hd1, ?_⟩
    rw [if_neg hne]
    have h3 : (w / hpp + 1) * hpp = (w / hpp) * hpp + hpp := by ring
    omega

/-- With no worker failure, reassembling the per-chunk boolean arrays
reproduces the sequential per-window classification array exactly. -/
theorem reconstruct_eq_seq (fails : ℕ → Bool) (numProc n hop : ℕ) (tsq : ℚ)
    (xPad : List ℚ) (hnp : 1 ≤ numProc) (hhop : 1 ≤ hop)
    (hlen : xPad.length = n * hop) (hf : ∀ i, fails i = false) :
    reconstructSilent n ((mkChunks numProc n hop hop tsq xPad).map
      (fun c => processAudioChunkF (fails c.chunk_idx) c)) =
    seqSilentArr xPad hop hop n tsq := by
  have hpt : ∀ r ∈ (mkChunks numProc n hop hop tsq xPad).map
      (fun c => processAudioChunkF (fails c.chunk_idx) c),
      ∀ j, j < r.silent.length →
      r.silent.getD j false =
        silentWindow tsq (windowOf xPad hop hop (r.start_hop_idx + j)) := by
    intro r hr j hj
    obtain ⟨i, hi, hlt, rfl⟩ :=
      results_pointwise fails numProc n hop tsq xPad hhop hlen hf r hr
    dsimp only at hj ⊢
    rw [List.length_map, List.length_range] at hj
    rw [range_map_getD _ _ _ _ hj]
  have hcov : ∀ w, w < n →
      ∃ r ∈ (mkChunks numProc n hop hop tsq xPad).map
        (fun c => processAudioChunkF (fails c.chunk_idx) c),
      r.start_hop_idx ≤ w ∧ w < r.start_hop_idx + r.silent.length := by
    intro w hw
    obtain ⟨i, hi, hlt, hshw, hwk⟩ := chunks_cover numProc n hnp w hw
    refine ⟨_, results_mem fails numProc n hop tsq xPad hhop hlen hf i hi hlt,
      hshw, ?_⟩
    simpa using hwk
  have hlenM : (reconstructSilent n ((mkChunks numProc n hop hop tsq xPad).map
      (fun c => processAudioChunkF (fails c.chunk_idx) c))).length = n := by
    rw [reconstructSilent, foldWrite_length, List.length_replicate]
  have hlenS : (seqSilentArr xPad hop hop n tsq).length = n := by
    rw [seqSilentArr, List.length_map, List.length_range]
  refine List.ext_getElem (by rw [hlenM, hlenS]) ?_
  intro w h1 h2
  have hwn : w < n := by rw [hlenM] at h1; exact h1
  rw [← List.getD_eq_getElem _ false h1, ← List.getD_eq_getElem _ false h2]
  rw [reconstructSilent,
    foldWrite_getD ((mkChunks numProc n hop hop tsq xPad).map
        (fun c => processAudioChunkF (fails c.chunk_idx) c))
      (List.replicate n false)
      (fun v => silentWindow tsq (windowOf xPad hop hop v)) hpt w
      (by rw [List.length_replicate]; exact hwn),
    if_pos (hcov w hwn)]
  rw [seqSilentArr, range_map_getD _ _ _ _ hwn]

/-- **C1** (`refinement_equivalence`): for a fixed input and parameter set,
with every worker succeeding, the chunk-parallel silence detector
(`_detect_silence_segments_multiprocessing`) returns exactly the same list of
segments as the sequential detector — hence the same `segment_count` and, for
each reported segment, identical `start_ms` and `end_ms`. -/
theorem detectMulti_eq_detectSeq (fails : ℕ → Bool) (numProc : ℕ) (x : List ℚ)
    (sr minSilenceLen : ℕ) (tsq : ℚ) (seekStep : ℕ)
    (hnp : 1 ≤ numProc) (hf : ∀ i, fails i = false) :
    detectMulti fails numProc x sr minSilenceLen tsq seekStep =
      detectSeq x sr minSilenceLen tsq seekStep ∧
    (detectMulti fails numProc x sr minSilenceLen tsq seekStep).length =
      (detectSeq x sr minSilenceLen tsq seekStep).length := by
  have hmain : detectMulti fails numProc x sr minSilenceLen tsq seekStep =
      detectSeq x sr minSilenceLen tsq seekStep := by
    simp only [detectMulti, detectSeq]
    by_cases hx : x.length = 0
    · rw [if_pos hx, if_pos hx]
    · rw [if_neg hx, if_neg hx]
      have hhop : 1 ≤ hopOf sr seekStep := hopOf_pos sr seekStep
      have hx1 : 1 ≤ x.length := by omega
      obtain ⟨hn1, -, hle⟩ :=
        nHopsOf_bounds x.length (hopOf sr seekStep) hx1 hhop
      have hlen : (xPadOf x (hopOf sr seekStep) (hopOf sr seekStep)
          (nHopsOf x.length (hopOf sr seekStep) (hopOf sr seekStep))).length =
          nHopsOf x.length (hopOf sr seekStep) (hopOf sr seekStep) *
            hopOf sr seekStep :=
        xPadOf_length x (hopOf sr seekStep) _ hn1 hle
      rw [reconstruct_eq_seq fails numProc _ _ tsq _ hnp hhop hlen hf]
  exact ⟨hmain, by rw [hmain]⟩

/-- Witness for `detectMulti_eq_detectSeq`: a concrete two-process run on a
four-sample signal. -/
theorem detectMulti_eq_detectSeq_witness :
    detectMulti (fun _ : ℕ => false) 2 [1, 0, 0, 1] 1000 1 (1/2) 1 =
      detectSeq [1, 0, 0, 1] 1000 1 (1/2) 1 ∧
    (detectMulti (fun _ : ℕ => false) 2 [1, 0, 0, 1] 1000 1 (1/2) 1).length =
      (detectSeq [1, 0, 0, 1] 1000 1 (1/2) 1).length :=
  detectMulti_eq_detectSeq (fun _ : ℕ => false) 2 [1, 0, 0, 1] 1000 1 (1/2) 1
    (by decide) (fun _ => rfl)

/-- Unfolding of the parallel detector on a nonempty signal. -/
theorem detectMulti_unfold (fails : ℕ → Bool) (numProc : ℕ) (x : List ℚ)
    (sr minLen : ℕ) (tsq : ℚ) (seek : ℕ) (hx : ¬ x.length = 0) :
    detectMulti fails numProc x sr minLen tsq seek =
      (segmentsOf
          (reconstructSilent (nHopsOf x.length (hopOf sr seek) (hopOf sr seek))
            ((mkChunks numProc (nHopsOf x.length (hopOf sr seek) (hopOf sr seek))
                (hopOf sr seek) (hopOf sr seek) tsq
                (xPadOf x (hopOf sr seek) (hopOf sr seek)
                  (nHopsOf x.length (hopOf sr seek) (hopOf sr seek)))).map
              (fun c => processAudioChunkF (fails c.chunk_idx) c)))
          seek minLen).map
        (fun p => (clamp p.1 0 (audioMsOf x.length sr),
                   clamp p.2 0 (audioMsOf x.length sr))) := by
  simp only [detectMulti]
  rw [if_neg hx]

/-- **C2** (code bug, `error_handling`): the spec requires a worker failure to
abandon the whole parallel attempt and recompute via the single-threaded
path, never returning partial or incorrect results.  But
`_process_audio_chunk` wraps its body in its own `try/except` and on an
exception returns `{'silent': [], ...}` instead of raising, so the failure
never reaches the coordinator's fallback `except`: `pool.map` succeeds, the
failed chunk's windows simply stay `False`, and a wrong partial result is
returned.  Concretely: 15 samples at 1000 Hz with silence in windows 2–5 and
two processes (chunk 0 = windows 0–9, chunk 1 = windows 10–14); when the
chunk-0 worker fails, the parallel detector reports no silence at all while
the sequential detector — the mandated fallback — reports the segment
`[2, 6]`. -/
theorem worker_failure_swallowed :
    detectMulti (fun i : ℕ => i == 0) 2
        [1, 1, 0, 0, 0, 0, 1, 1, 1, 1, 1, 1, 1, 1, 1] 1000 2 (1/2) 1 = [] ∧
    detectSeq [1, 1, 0, 0, 0, 0, 1, 1, 1, 1, 1, 1, 1, 1, 1] 1000 2 (1/2) 1 =
      [((2 : ℤ), (6 : ℤ))] ∧
    detectMulti (fun i : ℕ => i == 0) 2
        [1, 1, 0, 0, 0, 0, 1, 1, 1, 1, 1, 1, 1, 1, 1] 1000 2 (1/2) 1 ≠
      detectSeq [1, 1, 0, 0, 0, 0, 1, 1, 1, 1, 1, 1, 1, 1, 1] 1000 2 (1/2) 1 := by
  have hlen : ([1, 1, 0, 0, 0, 0, 1, 1, 1, 1, 1, 1, 1, 1, 1] : List ℚ).length = 15 :=
    rfl
  have hhop : hopOf 1000 1 = 1 := by
    norm_num [hopOf, pythonRound, ratFloor_eq]
  have hn : nHopsOf 15 1 1 = 15 := by
    have h14 : ratCeil ((((15 : ℕ) : ℚ) - ((1 : ℕ) : ℚ)) / ((1 : ℕ) : ℚ)) = 14 := by
      rw [ratCeil_eq]
      norm_num
    rw [nHopsOf, h14]
    rfl
  have hpad : xPadOf [1, 1, 0, 0, 0, 0, 1, 1, 1, 1, 1, 1, 1, 1, 1] 1 1 15 =
      [1, 1, 0, 0, 0, 0, 1, 1, 1, 1, 1, 1, 1, 1, 1] := rfl
  have w1 : silentWindow ((2 : ℚ)⁻¹) [(1 : ℚ)] = false := by
    rw [silentWindow]
    apply decide_eq_false
    norm_num [meanSq]
  have w0 : silentWindow ((2 : ℚ)⁻¹) [(0 : ℚ)] = true := by
    rw [silentWindow]
    apply decide_eq_true
    norm_num [meanSq]
  have hams : audioMsOf 15 1000 = 15 := by
    norm_num [audioMsOf, pythonRound, ratFloor_eq]
  have hr1 : processAudioChunk (AudioChunk.mk [(1 : ℚ), 1, 1, 1, 1] 10 1 1 (1/2) 1) =
      ChunkResult.mk [false, false, false, false, false] 10 1 := by
    have hL : ([(1 : ℚ), 1, 1, 1, 1] : List ℚ).length = 5 := rfl
    simp only [processAudioChunk, hL]
    rw [if_pos (by norm_num : (1 : ℕ) ≤ 5)]
    have h4 : ratCeil ((((5 : ℕ) : ℚ) - ((1 : ℕ) : ℚ)) / ((1 : ℕ) : ℚ)) = 4 := by
      rw [ratCeil_eq]
      norm_num
    rw [h4, if_neg (by norm_num : ¬ ((4 : ℤ) + 1 ≤ 0))]
    have h5 : ((4 : ℤ) + 1).toNat = 5 := rfl
    rw [h5]
    have hpad0 : ([(1 : ℚ), 1, 1, 1, 1] ++
        List.replicate ((5 - 1) * 1 + 1 - 5) (0 : ℚ)) = [(1 : ℚ), 1, 1, 1, 1] := rfl
    rw [hpad0]
    simp [List.range_succ, windowOf, w1]
  have hres : (mkChunks 2 15 1 1 (1/2 : ℚ)
        [1, 1, 0, 0, 0, 0, 1, 1, 1, 1, 1, 1, 1, 1, 1]).map
      (fun c => processAudioChunkF ((fun i : ℕ => i == 0) c.chunk_idx) c) =
      [ChunkResult.mk [] 0 0,
       processAudioChunk (AudioChunk.mk [(1 : ℚ), 1, 1, 1, 1] 10 1 1 (1/2) 1)] := rfl
  have hmulti : detectMulti (fun i : ℕ => i == 0) 2
      [1, 1, 0, 0, 0, 0, 1, 1, 1, 1, 1, 1, 1, 1, 1] 1000 2 (1/2) 1 = [] := by
    rw [detectMulti_unfold (fun i : ℕ => i == 0) 2 _ 1000 2 (1/2) 1
        (by rw [hlen]; norm_num),
      hlen, hhop, hn, hpad, hres, hr1]
    rfl
  have hsil : seqSilentArr [1, 1, 0, 0, 0, 0, 1, 1, 1, 1, 1, 1, 1, 1, 1] 1 1 15 (1/2) =
      [false, false, true, true, true, true, false, false, false, false, false,
       false, false, false, false] := by
    simp [seqSilentArr, windowOf, List.range_succ, w1, w0]
  have hseg : segmentsOf [false, false, true, true, true, true, false, false, false,
      false, false, false, false, false, false] 1 2 = [((2 : ℤ), (6 : ℤ))] := by
    decide
  have hdet : detectSeq [1, 1, 0, 0, 0, 0, 1, 1, 1, 1, 1, 1, 1, 1, 1] 1000 2 (1/2) 1 =
      [((2 : ℤ), (6 : ℤ))] := by
    rw [detectSeq_eq _ _ _ _ _ (by rw [hlen]; norm_num), hlen, hhop, hn, hpad,
      hsil, hseg, hams]
    norm_num [clamp]
  refine ⟨hmulti, hdet, ?_⟩
  rw [hmulti, hdet]
  decide

/-- Witness for `makePiecePlan_structure` at a two-interval list. -/
theorem makePiecePlan_structure_witness :
    makePiecePlan [((10 : ℤ), (20 : ℤ)), (30, 40)] 100 =
        [{ piece_index := 1, start_ms := 0, end_ms := 20, duration_ms := 20,
           trim_leading_ms := 0 },
         { piece_index := 2, start_ms := 10, end_ms := 40, duration_ms := 30,
           trim_leading_ms := 10 },
         { piece_index := 3, start_ms := 30, end_ms := 100, duration_ms := 70,
           trim_leading_ms := 10 }] ∧
      (makePiecePlan [((10 : ℤ), (20 : ℤ)), (30, 40)] 100).getD 1 dPiece =
        { piece_index := 2, start_ms := 10, end_ms := 40, duration_ms := 30,
          trim_leading_ms := 10 } := by
  refine ⟨by decide, ?_⟩
  have h := ((makePiecePlan_structure [((10 : ℤ), (20 : ℤ)), (30, 40)] 100).2
    2 (by decide) (by decide)).2.2.1 2 (by decide) (by decide)
  rw [h]; decide

end SilenceProc
